import Mathlib

/-!
# custom::list — a doubly linked list over a heap of nodes

Shallow embedding of `src/list.h`.

* A pointer `Node*` is an `Option Nat`: `none` is `nullptr`, `some a` an address.
* The heap is a list of cells indexed by address; a cell is `some node` while the
  node is live and `none` once it was deleted.  `new` takes the next address
  (the length of the heap) and always succeeds: running out of memory is not
  modelled.  `delete` empties the cell.
* Dereferencing `nullptr` or a deleted node is undefined behaviour in C++; every
  operation therefore returns an `Option`, and `none` stands for undefined
  behaviour.
* `Node::data` is declared `int` in the source whatever `T` is; it is an `Int` here
  (no arithmetic is ever done on it).
* `numElements` is a `size_t`.  It counts live nodes, which occupy distinct storage,
  so the increment cannot wrap; the decrement of `0` wraps to `2^64 - 1` as in C++.
* The overloads taking `const T&` and `T&&` have the same body for `int`, one
  definition stands for both.
* A list object is the record of its three member variables.  The operations on
  two objects (assignment, `swap`) test `this != &rhs`; they work on a store that
  holds the objects under their identities.
-/

namespace custom

/-- A pointer to a node: `none` is `nullptr`. -/
abbrev Ptr := Option Nat

/-- The nested class `list<T>::Node`. -/
structure Node where
  data : Int
  pNext : Ptr
  pPrev : Ptr
deriving DecidableEq

/-- The heap of nodes: cell `a` holds the node stored at address `a`, or `none`
when nothing live is stored there. -/
abbrev Heap := List (Option Node)

namespace Heap

/-- Read the node at an address (`none`: nothing live there). -/
def read (h : Heap) (a : Nat) : Option Node := (h.get? a).join

/-- Overwrite a cell. -/
def upd (h : Heap) (a : Nat) (c : Option Node) : Heap := h.set a c

/-- The expression `new Node(..)`: the node is stored at the next address. -/
def alloc (h : Heap) (n : Node) : Heap × Nat := (h ++ [some n], h.length)

/-- The statement `delete p`: undefined on `nullptr` and on a dead node. -/
def free (h : Heap) (p : Ptr) : Option Heap := do
  let a ← p
  let _ ← h.read a
  pure (h.upd a none)

/-- The expression `p->pNext`. -/
def getNext (h : Heap) (p : Ptr) : Option Ptr := do
  let a ← p
  let n ← h.read a
  pure n.pNext

/-- The expression `p->pPrev`. -/
def getPrev (h : Heap) (p : Ptr) : Option Ptr := do
  let a ← p
  let n ← h.read a
  pure n.pPrev

/-- The expression `p->data`. -/
def getData (h : Heap) (p : Ptr) : Option Int := do
  let a ← p
  let n ← h.read a
  pure n.data

/-- The statement `p->pNext = v`. -/
def setNext (h : Heap) (p : Ptr) (v : Ptr) : Option Heap := do
  let a ← p
  let n ← h.read a
  pure (h.upd a (some { n with pNext := v }))

/-- The statement `p->pPrev = v`. -/
def setPrev (h : Heap) (p : Ptr) (v : Ptr) : Option Heap := do
  let a ← p
  let n ← h.read a
  pure (h.upd a (some { n with pPrev := v }))

/-- The statement `p->data = v` (a write through `operator*`). -/
def setData (h : Heap) (p : Ptr) (v : Int) : Option Heap := do
  let a ← p
  let n ← h.read a
  pure (h.upd a (some { n with data := v }))

end Heap

/-- The member variables of `custom::list`. -/
structure list where
  numElements : Nat
  pHead : Ptr
  pTail : Ptr
deriving DecidableEq

/-- The nested class `list<T>::iterator`: a wrapped node pointer. -/
structure list.iterator where
  p : Ptr
deriving DecidableEq

/-- The statement `numElements--` on a `size_t`. -/
def decr (n : Nat) : Nat := if n = 0 then 2 ^ 64 - 1 else n - 1

namespace list

/-- The default constructor `list()`. -/
def default : list := ⟨0, none, none⟩

/-- The member `begin()`. -/
def begin (l : list) : iterator := ⟨l.pHead⟩

/-- The member `end()`; the name `end` is reserved in Lean. -/
def end_ (_l : list) : iterator := ⟨none⟩

/-- The member `empty()`. -/
def empty (l : list) : Bool := l.numElements == 0

/-- The member `size()`. -/
def size (l : list) : Nat := l.numElements

/-- The member `push_back`. -/
def push_back (h : Heap) (l : list) (data : Int) : Option (Heap × list) :=
  let (h1, pNew) := h.alloc ⟨data, none, none⟩
  if l.pHead = none then
    some (h1, ⟨l.numElements + 1, some pNew, some pNew⟩)
  else do
    let h2 ← h1.setNext l.pTail (some pNew)
    let h3 ← h2.setPrev (some pNew) l.pTail
    let h4 ← h3.setNext (some pNew) none
    pure (h4, ⟨l.numElements + 1, l.pHead, some pNew⟩)

/-- The member `push_front`. -/
def push_front (h : Heap) (l : list) (data : Int) : Option (Heap × list) :=
  let (h1, pNew) := h.alloc ⟨data, none, none⟩
  do
    let h2 ← h1.setNext (some pNew) l.pHead
    let h3 ← h2.setPrev (some pNew) none
    if l.pHead ≠ none then do
      let h4 ← h3.setPrev l.pHead (some pNew)
      pure (h4, ⟨l.numElements + 1, some pNew, l.pTail⟩)
    else
      pure (h3, ⟨l.numElements + 1, some pNew, some pNew⟩)

/-- The member `pop_back`. -/
def pop_back (h : Heap) (l : list) : Option (Heap × list) :=
  if l.pTail = none then
    some (h, l)
  else if l.pHead = l.pTail then do
    let h1 ← h.free l.pHead
    pure (h1, ⟨decr l.numElements, none, none⟩)
  else do
    let pTemp := l.pTail
    let pTail ← h.getPrev l.pTail
    let h1 ← h.free pTemp
    let h2 ← h1.setNext pTail none
    pure (h2, ⟨decr l.numElements, l.pHead, pTail⟩)

/-- The member `pop_front`. -/
def pop_front (h : Heap) (l : list) : Option (Heap × list) :=
  if l.pHead = none then
    some (h, l)
  else if l.pHead = l.pTail then do
    let h1 ← h.free l.pHead
    pure (h1, ⟨decr l.numElements, none, none⟩)
  else do
    let pTemp := l.pHead
    let pHead ← h.getNext l.pHead
    let h1 ← h.free pTemp
    let h2 ← h1.setPrev pHead none
    pure (h2, ⟨decr l.numElements, pHead, l.pTail⟩)

/-- The loop of `clear()`: `while (pTemp != nullptr)` delete the node and go on
with its successor.  Every round deletes a live node, so the heap length bounds
the number of rounds. -/
def clearLoop (h : Heap) : Nat → Ptr → Option Heap
  | _, none => some h
  | 0, some _ => none
  | fuel + 1, some a => do
    let pNext ← h.getNext (some a)
    let h1 ← h.free (some a)
    clearLoop h1 fuel pNext

/-- The member `clear()`. -/
def clear (h : Heap) (l : list) : Option (Heap × list) := do
  let h1 ← clearLoop h h.length l.pHead
  pure (h1, ⟨0, none, none⟩)

/-- The member `front()`: the value read through the returned reference (on an
empty list the source returns a reference to a fresh `int(99)`). -/
def front (h : Heap) (l : list) : Option Int :=
  if l.pHead = none then some 99 else h.getData l.pHead

/-- The member `back()`: the value read through the returned reference. -/
def back (h : Heap) (l : list) : Option Int :=
  if l.pTail = none then some 99 else h.getData l.pTail

/-- The member `erase`. -/
def erase (h : Heap) (l : list) (it : iterator) : Option (Heap × list × iterator) :=
  let pDelete := it.p
  if pDelete = none then
    some (h, l, l.end_)
  else do
    let itReturn : iterator := ⟨← h.getNext pDelete⟩
    let (h1, pHead) ←
      (if (← h.getPrev pDelete) ≠ none then do
        let h1 ← h.setNext (← h.getPrev pDelete) (← h.getNext pDelete)
        pure (h1, l.pHead)
      else do
        pure (h, ← h.getNext pDelete))
    let (h2, pTail) ←
      (if (← h1.getNext pDelete) ≠ none then do
        let h2 ← h1.setPrev (← h1.getNext pDelete) (← h1.getPrev pDelete)
        pure (h2, l.pTail)
      else do
        pure (h1, ← h1.getPrev pDelete))
    let h3 ← h2.free pDelete
    pure (h3, ⟨decr l.numElements, pHead, pTail⟩, itReturn)

/-- The member `insert`. -/
def insert (h : Heap) (l : list) (it : iterator) (data : Int) :
    Option (Heap × list × iterator) :=
  let pNext := it.p
  if pNext = none then do
    let (h1, l1) ← push_back h l data
    pure (h1, l1, ⟨l1.pTail⟩)
  else
    let (h1, pNew) := h.alloc ⟨data, none, none⟩
    do
      let h2 ← h1.setNext (some pNew) pNext
      let h3 ← h2.setPrev (some pNew) (← h2.getPrev pNext)
      let (h4, pHead) ←
        (if (← h3.getPrev pNext) ≠ none then do
          let h4 ← h3.setNext (← h3.getPrev pNext) (some pNew)
          pure (h4, l.pHead)
        else
          pure (h3, some pNew))
      let h5 ← h4.setPrev pNext (some pNew)
      pure (h5, ⟨l.numElements + 1, pHead, l.pTail⟩, ⟨some pNew⟩)

end list

/-! ## Traversal and the data-model invariants -/

/-- Apply `p = p->pNext` to a pointer `k` times (`none`: a step dereferenced
`nullptr` or a dead node). -/
def walkNext (h : Heap) : Nat → Ptr → Option Ptr
  | 0, p => some p
  | k + 1, p => do
    let q ← h.getNext p
    walkNext h k q

/-- Apply `p = p->pPrev` to a pointer `k` times. -/
def walkPrev (h : Heap) : Nat → Ptr → Option Ptr
  | 0, p => some p
  | k + 1, p => do
    let q ← h.getPrev p
    walkPrev h k q

/-- The loop `for (it = p; it != end(); ++it)` reading `*it`: the values met,
or `none` when the fuel runs out or a step is undefined. -/
def forward (h : Heap) : Nat → Ptr → Option (List Int)
  | _, none => some []
  | 0, some _ => none
  | fuel + 1, some a => do
    let v ← h.getData (some a)
    let q ← h.getNext (some a)
    let rest ← forward h fuel q
    pure (v :: rest)

/-- The addresses met by following `pNext` from `p` until `nullptr`. -/
def forwardNodes (h : Heap) : Nat → Ptr → Option (List Nat)
  | _, none => some []
  | 0, some _ => none
  | fuel + 1, some a => do
    let q ← h.getNext (some a)
    let rest ← forwardNodes h fuel q
    pure (a :: rest)

/-- The element sequence of a list: the values read from `begin()` to `end()`.
A chain without a cycle has at most as many nodes as the heap has cells, so the
heap length is enough fuel. -/
def elements (h : Heap) (l : list) : Option (List Int) := forward h h.length l.pHead

/-- The nodes of a list, in order from the head. -/
def nodes (h : Heap) (l : list) : Option (List Nat) := forwardNodes h h.length l.pHead

/-- Both link conditions at the node stored at `a`: `n.next.prev == n` when
`n.next` exists and `n.prev.next == n` when `n.prev` exists. -/
def linksOK (h : Heap) (a : Nat) : Prop :=
  (∀ b, h.getNext (some a) = some (some b) → h.getPrev (some b) = some (some a)) ∧
  (∀ b, h.getPrev (some a) = some (some b) → h.getNext (some b) = some (some a))

/-- The data-model invariants of a list in a heap. -/
structure WF (h : Heap) (l : list) : Prop where
  /-- `count == 0` iff both `head` and `tail` are none. -/
  empty_iff : l.numElements = 0 ↔ (l.pHead = none ∧ l.pTail = none)
  /-- If non-empty, `head.prev` is none and `tail.next` is none. -/
  ends : l.numElements ≠ 0 → h.getPrev l.pHead = some none ∧ h.getNext l.pTail = some none
  /-- Every node met within `count` steps from the head has consistent links. -/
  links : ∀ k, k < l.numElements → ∀ a, walkNext h k l.pHead = some (some a) → linksOK h a
  /-- The tail is reached from the head in exactly `count - 1` steps. -/
  reach : l.numElements ≠ 0 → walkNext h (l.numElements - 1) l.pHead = some l.pTail

/-- An iterator position that references a node of the list. -/
def isNodeOf (h : Heap) (l : list) (a : Nat) : Prop :=
  ∃ k, k < l.numElements ∧ walkNext h k l.pHead = some (some a)

instance (h : Heap) (l : list) (a : Nat) : Decidable (isNodeOf h l a) :=
  inferInstanceAs (Decidable (∃ k, k < l.numElements ∧ walkNext h k l.pHead = some (some a)))

/-- A position accepted by `insert` and `erase`: the end position or a node of
the list. -/
def validPos (h : Heap) (l : list) (it : list.iterator) : Prop :=
  match it.p with
  | none => True
  | some a => isNodeOf h l a

instance (h : Heap) (l : list) (it : list.iterator) : Decidable (validPos h l it) :=
  match it with
  | ⟨none⟩ => isTrue trivial
  | ⟨some a⟩ => inferInstanceAs (Decidable (isNodeOf h l a))

/-! ## Segments: the chain of a list as a sequence of (address, value) pairs -/

/-- Address of the first pair, or `d` for the empty sequence. -/
def firstOr : List (Nat × Int) → Ptr → Ptr
  | [], d => d
  | (a, _) :: _, _ => some a

/-- Address of the last pair, or `d` for the empty sequence. -/
def lastOr : List (Nat × Int) → Ptr → Ptr
  | [], d => d
  | (a, _) :: rest, _ => lastOr rest (some a)

/-- The heap holds the nodes `xs` linked in this order; the first one's `pPrev`
is `prev`, the last one's `pNext` is `next`. -/
def Seg (h : Heap) : Ptr → List (Nat × Int) → Ptr → Prop
  | _, [], _ => True
  | prev, (a, v) :: rest, next =>
    h.read a = some ⟨v, firstOr rest next, prev⟩ ∧ Seg h (some a) rest next

/-- The list `l` in heap `h` consists of exactly the nodes `xs`. -/
structure Repr (h : Heap) (l : list) (xs : List (Nat × Int)) : Prop where
  seg : Seg h none xs none
  head : l.pHead = firstOr xs none
  tail : l.pTail = lastOr xs none
  count : l.numElements = xs.length

/-! ## Iterators and constructors -/

namespace list

/-- The iterator's `operator==`. -/
def iterator.eq (a b : iterator) : Bool := a.p == b.p

/-- The iterator's `operator!=`. -/
def iterator.ne (a b : iterator) : Bool := a.p != b.p

/-- The iterator's `operator*`, read. -/
def iterator.deref (h : Heap) (it : iterator) : Option Int := h.getData it.p

/-- The iterator's prefix `operator++`: the advanced iterator. -/
def iterator.preInc (h : Heap) (it : iterator) : Option iterator := do
  let q ← h.getNext it.p
  pure ⟨q⟩

/-- The iterator's postfix `operator++`: the advanced iterator and the returned copy. -/
def iterator.postInc (h : Heap) (it : iterator) : Option (iterator × iterator) := do
  let tmp := it
  let q ← h.getNext it.p
  pure (⟨q⟩, tmp)

/-- The iterator's prefix `operator--`. -/
def iterator.preDec (h : Heap) (it : iterator) : Option iterator := do
  let q ← h.getPrev it.p
  pure ⟨q⟩

/-- The iterator's postfix `operator--`: the moved iterator and the returned copy. -/
def iterator.postDec (h : Heap) (it : iterator) : Option (iterator × iterator) := do
  let tmp := it
  let q ← h.getPrev it.p
  pure (⟨q⟩, tmp)

/-- The loop `for (size_t i = 1; i < num; i++)` of the fill constructors, with
the number of rounds left; carries the heap and `pTail`. -/
def fillLoop (h : Heap) (pTail : Ptr) (t : Int) : Nat → Option (Heap × Ptr)
  | 0 => some (h, pTail)
  | k + 1 =>
    let (h1, pNew) := h.alloc ⟨t, none, none⟩
    do
      let h2 ← h1.setNext pTail (some pNew)
      let h3 ← h2.setPrev (some pNew) pTail
      fillLoop h3 (some pNew) t k

/-- The constructor `list(size_t num, const T & t)`. -/
def fill (h : Heap) (num : Nat) (t : Int) : Option (Heap × list) :=
  if num > 0 then
    let (h1, p) := h.alloc ⟨t, none, none⟩
    do
      let h2 ← (if num > 1 then h1.setNext (some p) (some p) else pure h1)
      let (h3, pTail) ← fillLoop h2 (some p) t (num - 1)
      let h4 ← h3.setNext pTail none
      let h5 ← h4.setPrev (some p) none
      pure (h5, ⟨num, some p, pTail⟩)
  else
    some (h, ⟨0, none, none⟩)

/-- The constructor `list(size_t num)`: `Node()` stores `0`. -/
def fillDefault (h : Heap) (num : Nat) : Option (Heap × list) := fill h num 0

/-- The loop of the initializer-list and iterator-range constructors:
`push_back(*it)` for every value of the range. -/
def pushAll (h : Heap) (l : list) : List Int → Option (Heap × list)
  | [] => some (h, l)
  | v :: vs => do
    let (h1, l1) ← push_back h l v
    pushAll h1 l1 vs

/-- The constructors `list(const std::initializer_list<T>&)` and
`list(Iterator first, Iterator last)` over a range yielding `il`. -/
def fromSequence (h : Heap) (il : List Int) : Option (Heap × list) :=
  pushAll h default il

/-- The constructor `list(Iterator first, Iterator last)` by itself, the range
`[first, last)` given by the values it yields: the same body as `fromSequence`. -/
def fromRange (h : Heap) (range : List Int) : Option (Heap × list) :=
  pushAll h default range

/-- The loop of the copy constructor: `for (it = rhs.begin(); it != rhs.end(); ++it)
push_back(*it)`.  The fuel bounds the number of rounds. -/
def copyLoop (h : Heap) (l : list) : Nat → Ptr → Option (Heap × list)
  | _, none => some (h, l)
  | 0, some _ => none
  | fuel + 1, some a => do
    let v ← h.getData (some a)
    let (h1, l1) ← push_back h l v
    let q ← h1.getNext (some a)
    copyLoop h1 l1 fuel q

/-- The copy constructor `list(list & rhs)`.  A chain without a cycle has at most
as many nodes as the heap had cells at the start, which is the fuel. -/
def copy (h : Heap) (rhs : list) : Option (Heap × list) :=
  copyLoop h default h.length rhs.pHead

/-- The move constructor `list(list && rhs)`: the new list and what is left of
`rhs`. -/
def move (h : Heap) (rhs : list) : Option (Heap × list × list) := do
  let this : list := ⟨rhs.numElements, rhs.pHead, rhs.pTail⟩
  let rhs1 : list := ⟨0, none, none⟩
  let (h1, rhs2) ← clear h rhs1
  pure (h1, this, rhs2)

end list

/-! ## Sequences of calls -/

/-- A call of one of the six inserting and removing members. -/
inductive Op where
  | push_front (v : Int)
  | push_back (v : Int)
  | pop_front
  | pop_back
  | insert (it : list.iterator) (v : Int)
  | erase (it : list.iterator)
deriving DecidableEq

namespace Op

/-- Run one call. -/
def run (h : Heap) (l : list) : Op → Option (Heap × list)
  | push_front v => list.push_front h l v
  | push_back v => list.push_back h l v
  | pop_front => list.pop_front h l
  | pop_back => list.pop_back h l
  | insert it v => (list.insert h l it v).map fun r => (r.1, r.2.1)
  | erase it => (list.erase h l it).map fun r => (r.1, r.2.1)

/-- The precondition of a call: `insert` and `erase` get the end position or a
node of the list. -/
def valid (h : Heap) (l : list) : Op → Prop
  | insert it _ => validPos h l it
  | erase it => validPos h l it
  | _ => True

instance (h : Heap) (l : list) : (op : Op) → Decidable (op.valid h l)
  | insert it _ => inferInstanceAs (Decidable (validPos h l it))
  | erase it => inferInstanceAs (Decidable (validPos h l it))
  | push_front _ => isTrue trivial
  | push_back _ => isTrue trivial
  | pop_front => isTrue trivial
  | pop_back => isTrue trivial

/-- The call is an insertion. -/
def inserts : Op → Bool
  | push_front _ => true
  | push_back _ => true
  | insert _ _ => true
  | _ => false

/-- The call removes a node when made on `l`: a pop on a non-empty list, an
`erase` at a position other than the end position. -/
def removes (l : list) : Op → Bool
  | pop_front => !l.empty
  | pop_back => !l.empty
  | erase it => it.ne l.end_
  | _ => false

end Op

/-- Run a sequence of calls. -/
def runOps (h : Heap) (l : list) : List Op → Option (Heap × list)
  | [] => some (h, l)
  | op :: ops => do
    let (h1, l1) ← op.run h l
    runOps h1 l1 ops

/-- Every call of the sequence meets its precondition in the state it is made in. -/
def validOps (h : Heap) (l : list) : List Op → Prop
  | [] => True
  | op :: ops =>
    op.valid h l ∧
      match op.run h l with
      | some (h1, l1) => validOps h1 l1 ops
      | none => True

/-- Whether a sequence of calls is valid can be computed. -/
def validOps.dec : (ops : List Op) → (h : Heap) → (l : list) → Decidable (validOps h l ops)
  | [], _, _ => isTrue trivial
  | op :: ops, h, l =>
    have : Decidable (match op.run h l with
        | some (h1, l1) => validOps h1 l1 ops
        | none => True) :=
      match op.run h l with
      | some (h1, l1) => validOps.dec ops h1 l1
      | none => isTrue trivial
    inferInstanceAs (Decidable (op.valid h l ∧ _))

instance (h : Heap) (l : list) (ops : List Op) : Decidable (validOps h l ops) :=
  validOps.dec ops h l

/-- The number of insertions of a sequence. -/
def insertions (ops : List Op) : Nat := (ops.filter Op.inserts).length

/-- The number of calls of a sequence that removed a node. -/
def removals (h : Heap) (l : list) : List Op → Nat
  | [] => 0
  | op :: ops =>
    (if op.removes l then 1 else 0) +
      match op.run h l with
      | some (h1, l1) => removals h1 l1 ops
      | none => 0

/-- A mutation of a list: one of the six calls, `clear()`, or a write `*it = v`
through an iterator. -/
inductive Mutation where
  | op (o : Op)
  | clear
  | write (it : list.iterator) (v : Int)

namespace Mutation

/-- Run one mutation. -/
def run (h : Heap) (l : list) : Mutation → Option (Heap × list)
  | op o => o.run h l
  | clear => list.clear h l
  | write it v => (h.setData it.p v).map fun h1 => (h1, l)

/-- The precondition of a mutation: a write goes through an iterator that
references a node of the list. -/
def valid (h : Heap) (l : list) : Mutation → Prop
  | op o => o.valid h l
  | clear => True
  | write it _ =>
    match it.p with
    | none => False
    | some a => isNodeOf h l a

instance (h : Heap) (l : list) : (m : Mutation) → Decidable (m.valid h l)
  | op o => inferInstanceAs (Decidable (o.valid h l))
  | clear => isTrue trivial
  | write ⟨none⟩ _ => isFalse fun f => f
  | write ⟨some a⟩ _ => inferInstanceAs (Decidable (isNodeOf h l a))

end Mutation

/-- Run a sequence of mutations. -/
def runMutations (h : Heap) (l : list) : List Mutation → Option (Heap × list)
  | [] => some (h, l)
  | m :: ms => do
    let (h1, l1) ← m.run h l
    runMutations h1 l1 ms

/-- Every mutation of the sequence meets its precondition in the state it is made in. -/
def validMutations (h : Heap) (l : list) : List Mutation → Prop
  | [] => True
  | m :: ms =>
    m.valid h l ∧
      match m.run h l with
      | some (h1, l1) => validMutations h1 l1 ms
      | none => True

/-- Whether a sequence of mutations is valid can be computed. -/
def validMutations.dec :
    (ms : List Mutation) → (h : Heap) → (l : list) → Decidable (validMutations h l ms)
  | [], _, _ => isTrue trivial
  | m :: ms, h, l =>
    have : Decidable (match m.run h l with
        | some (h1, l1) => validMutations h1 l1 ms
        | none => True) :=
      match m.run h l with
      | some (h1, l1) => validMutations.dec ms h1 l1
      | none => isTrue trivial
    inferInstanceAs (Decidable (m.valid h l ∧ _))

instance (h : Heap) (l : list) (ms : List Mutation) : Decidable (validMutations h l ms) :=
  validMutations.dec ms h l

/-- The list objects of a program, each under its identity: the test
`this != &rhs` of the source compares identities. -/
abbrev Store := Nat → list

/-- Overwrite the member variables of one list object. -/
def Store.set (st : Store) (i : Nat) (l : list) : Store :=
  fun k => if k = i then l else st k

namespace list

/-- The destructor `~list()`: its body is empty. -/
def destructor (h : Heap) (_l : list) : Option Heap := some h

/-- The body of `operator = (list && rhs)` under `this != &rhs`, on the member
variables of the two distinct objects: the heap, `*this` and `rhs` afterwards. -/
def assignMoveBody (h : Heap) (this rhs : list) : Option (Heap × list × list) := do
  let (h1, _) ← clear h this
  let this1 : list := ⟨rhs.numElements, rhs.pHead, rhs.pTail⟩
  let rhs1 : list := ⟨0, none, none⟩
  pure (h1, this1, rhs1)

/-- The member `operator = (list && rhs)` on the objects `this` and `rhs`. -/
def assignMove (h : Heap) (st : Store) (this rhs : Nat) : Option (Heap × Store) :=
  if this ≠ rhs then do
    let (h1, this1, rhs1) ← assignMoveBody h (st this) (st rhs)
    pure (h1, (st.set this this1).set rhs rhs1)
  else
    some (h, st)

/-- The member `operator = (list & rhs)`: `*this = list(rhs)` copy-constructs a
temporary, move-assigns from it (no stored object is the temporary) and destroys
it. -/
def assignCopy (h : Heap) (st : Store) (this rhs : Nat) : Option (Heap × Store) :=
  if this ≠ rhs then do
    let (h1, tmp) ← copy h (st rhs)
    let (h2, this1, tmp1) ← assignMoveBody h1 (st this) tmp
    let h3 ← destructor h2 tmp1
    pure (h3, st.set this this1)
  else
    some (h, st)

/-- The member `operator = (const std::initializer_list<T>& rhs)`:
`*this = list(rhs)`. -/
def assignSequence (h : Heap) (st : Store) (this : Nat) (il : List Int) :
    Option (Heap × Store) := do
  let (h1, tmp) ← fromSequence h il
  let (h2, this1, tmp1) ← assignMoveBody h1 (st this) tmp
  let h3 ← destructor h2 tmp1
  pure (h3, st.set this this1)

/-- The member `swap(list & rhs)`: three `std::swap` of member variables, no node
is dereferenced. -/
def swap (h : Heap) (st : Store) (this rhs : Nat) : Heap × Store :=
  if this ≠ rhs then
    let a := st this
    let b := st rhs
    (h, (st.set this ⟨b.numElements, b.pHead, b.pTail⟩).set rhs
      ⟨a.numElements, a.pHead, a.pTail⟩)
  else
    (h, st)

end list

/-- Two list objects over a heap share no node. -/
def disjointLists (h : Heap) (a b : list) : Prop :=
  ∀ n, isNodeOf h a n → ¬ isNodeOf h b n

/-! ## Example states -/

/-- The list `[1, 2, 3]` laid out at addresses 0, 1, 2. -/
def heap123 : Heap :=
  [some ⟨1, some 1, none⟩, some ⟨2, some 2, some 0⟩, some ⟨3, none, some 1⟩]

/-- The list object over `heap123`. -/
def list123 : list := ⟨3, some 0, some 2⟩

/-- The nodes of `list123`. -/
def repr123 : List (Nat × Int) := [(0, 1), (1, 2), (2, 3)]

/-- The heap `heap123` with a second list `[7]` at address 3. -/
def heap1237 : Heap := heap123 ++ [some ⟨7, none, none⟩]

/-- The list object `[7]` over `heap1237`. -/
def list7 : list := ⟨1, some 3, some 3⟩

/-- A store with `list123` as object 0, `list7` as object 1 and empty lists
elsewhere. -/
def store1237 : Store :=
  fun k => if k = 0 then list123 else if k = 1 then list7 else list.default

open Heap

/-! ## Heap lemmas -/

namespace Heap

theorem read_upd (h : Heap) (a b : Nat) (c : Option Node) :
    (h.upd a c).read b = if b = a ∧ a < h.length then c else h.read b := by
  unfold read upd
  by_cases hb : b = a
  · subst hb
    by_cases hl : b < h.length
    · simp [hl, List.getElem?_set_self]
    · simp [hl]
      have : h.length ≤ b := by omega
      simp [List.getElem?_eq_none, this]
  · have : a ≠ b := fun e => hb e.symm
    simp [hb, List.getElem?_set_ne this]

theorem read_snoc (h : Heap) (c : Option Node) (b : Nat) :
    read (h ++ [c]) b = if b = h.length then c else h.read b := by
  unfold read
  by_cases hb : b = h.length
  · subst hb; simp
  · simp [hb]
    by_cases hl : b < h.length
    · simp [List.getElem?_append_left hl]
    · have h1 : h.length ≤ b := by omega
      rw [List.getElem?_append_right h1]
      simp [List.getElem?_eq_none h1]
      cases hk : b - h.length with
      | zero => omega
      | succ k => simp

theorem read_lt {h : Heap} {a : Nat} {n : Node} (hr : h.read a = some n) : a < h.length := by
  unfold read at hr
  by_contra hl
  have : h.length ≤ a := by omega
  simp [List.getElem?_eq_none this] at hr

theorem read_length (h : Heap) : h.read h.length = none := by
  cases hr : h.read h.length with
  | none => rfl
  | some n => exact absurd (read_lt hr) (lt_irrefl _)

@[simp] theorem length_upd (h : Heap) (a : Nat) (c : Option Node) :
    (h.upd a c).length = h.length := by
  simp [upd]

end Heap

/-! ## Segment lemmas -/

@[simp] theorem lastOr_append (xs ys : List (Nat × Int)) (d : Ptr) :
    lastOr (xs ++ ys) d = lastOr ys (lastOr xs d) := by
  induction xs generalizing d with
  | nil => rfl
  | cons x xs ih => obtain ⟨a, v⟩ := x; simp [lastOr, ih]

@[simp] theorem firstOr_nil (d : Ptr) : firstOr [] d = d := rfl

@[simp] theorem firstOr_cons (a : Nat) (v : Int) (xs : List (Nat × Int)) (d : Ptr) :
    firstOr ((a, v) :: xs) d = some a := rfl

@[simp] theorem lastOr_nil (d : Ptr) : lastOr [] d = d := rfl

@[simp] theorem lastOr_cons (a : Nat) (v : Int) (xs : List (Nat × Int)) (d : Ptr) :
    lastOr ((a, v) :: xs) d = lastOr xs (some a) := rfl

theorem firstOr_ne_none {xs : List (Nat × Int)} (hx : xs ≠ []) (d : Ptr) :
    firstOr xs d ≠ none := by
  cases xs with
  | nil => exact absurd rfl hx
  | cons x xs => obtain ⟨a, v⟩ := x; simp

theorem lastOr_ne_none {xs : List (Nat × Int)} (hx : xs ≠ []) (d : Ptr) :
    lastOr xs d ≠ none := by
  rcases List.eq_nil_or_concat xs with rfl | ⟨ys, ⟨t, w⟩, rfl⟩
  · exact absurd rfl hx
  · rw [List.concat_eq_append]; simp

@[simp] theorem firstOr_append (xs ys : List (Nat × Int)) (d : Ptr) :
    firstOr (xs ++ ys) d = firstOr xs (firstOr ys d) := by
  cases xs with
  | nil => rfl
  | cons x xs => obtain ⟨a, v⟩ := x; rfl

theorem Seg_append (h : Heap) (prev next : Ptr) (xs ys : List (Nat × Int)) :
    Seg h prev (xs ++ ys) next ↔
      Seg h prev xs (firstOr ys next) ∧ Seg h (lastOr xs prev) ys next := by
  induction xs generalizing prev with
  | nil => simp [Seg, lastOr]
  | cons x xs ih =>
    obtain ⟨a, v⟩ := x
    simp [Seg, lastOr, ih, and_assoc]

/-- A segment only depends on the cells of its own nodes. -/
theorem Seg_frame {h h2 : Heap} {prev next : Ptr} {xs : List (Nat × Int)}
    (hs : Seg h prev xs next) (hf : ∀ x ∈ xs, h2.read x.1 = h.read x.1) :
    Seg h2 prev xs next := by
  induction xs generalizing prev with
  | nil => trivial
  | cons x xs ih =>
    obtain ⟨a, v⟩ := x
    refine ⟨?_, ih hs.2 (fun y hy => hf y (List.mem_cons_of_mem _ hy))⟩
    rw [hf (a, v) (List.mem_cons_self _ _)]
    exact hs.1

theorem Seg_live {h : Heap} {prev next : Ptr} {xs : List (Nat × Int)}
    (hs : Seg h prev xs next) : ∀ x ∈ xs, x.1 < h.length := by
  induction xs generalizing prev with
  | nil => intro x hx; cases hx
  | cons y ys ih =>
    obtain ⟨a, v⟩ := y
    intro x hx
    rcases List.mem_cons.1 hx with rfl | hx
    · exact Heap.read_lt hs.1
    · exact ih hs.2 x hx

/-- Two null-terminated segments starting at the same pointer are equal. -/
theorem Seg_det {h : Heap} {p q : Ptr} {xs ys : List (Nat × Int)}
    (hx : Seg h p xs none) (hy : Seg h q ys none)
    (hf : firstOr xs none = firstOr ys none) : xs = ys := by
  induction xs generalizing p q ys with
  | nil =>
    cases ys with
    | nil => rfl
    | cons y ys => obtain ⟨b, w⟩ := y; simp [firstOr] at hf
  | cons x xs ih =>
    obtain ⟨a, v⟩ := x
    cases ys with
    | nil => simp [firstOr] at hf
    | cons y ys =>
      obtain ⟨b, w⟩ := y
      simp only [firstOr, Option.some.injEq] at hf
      subst hf
      have h1 := hx.1
      rw [hy.1] at h1
      simp only [Option.some.injEq, Node.mk.injEq] at h1
      obtain ⟨hv, hn, -⟩ := h1
      subst hv
      rw [ih hx.2 hy.2 hn.symm]

theorem Seg_nodup {h : Heap} {p : Ptr} {xs : List (Nat × Int)}
    (hx : Seg h p xs none) : (xs.map Prod.fst).Nodup := by
  induction xs generalizing p with
  | nil => simp
  | cons x xs ih =>
    obtain ⟨a, v⟩ := x
    rw [List.map_cons, List.nodup_cons]
    refine ⟨?_, ih hx.2⟩
    intro hm
    obtain ⟨⟨a2, w⟩, hmem, ha⟩ := List.mem_map.1 hm
    simp only at ha
    subst ha
    obtain ⟨pre, post, hsplit⟩ := List.append_of_mem hmem
    have hseg := hx.2
    rw [hsplit, Seg_append] at hseg
    have := Seg_det hx hseg.2 rfl
    have hlen := congrArg List.length this
    rw [hsplit] at hlen
    simp at hlen
    omega

theorem Seg_upd {h : Heap} {prev next : Ptr} {xs : List (Nat × Int)} {a : Nat}
    (c : Option Node) (hs : Seg h prev xs next) (ha : a ∉ xs.map Prod.fst) :
    Seg (h.upd a c) prev xs next := by
  refine Seg_frame hs (fun x hx => ?_)
  have : x.1 ≠ a := fun e => ha (e ▸ List.mem_map_of_mem _ hx)
  simp [Heap.read_upd, this]

theorem Seg_snoc {h : Heap} {prev next : Ptr} {xs : List (Nat × Int)}
    (c : Option Node) (hs : Seg h prev xs next) : Seg (h ++ [c]) prev xs next := by
  refine Seg_frame hs (fun x hx => ?_)
  have : x.1 ≠ h.length := by have := Seg_live hs x hx; omega
  simp [Heap.read_snoc, this]

theorem Seg_fresh {h : Heap} {prev next : Ptr} {xs : List (Nat × Int)}
    (hs : Seg h prev xs next) : h.length ∉ xs.map Prod.fst := by
  intro hm
  obtain ⟨x, hx, e⟩ := List.mem_map.1 hm
  have := Seg_live hs x hx
  omega

theorem Repr.nodup {h : Heap} {l : list} {xs : List (Nat × Int)} (r : Repr h l xs) :
    (xs.map Prod.fst).Nodup := Seg_nodup r.seg

/-! ## The mutators on a represented list -/

theorem nodup_mid2 {A B : List Nat} {p d : Nat} (hnd : (A ++ p :: d :: B).Nodup) :
    p ∉ A ∧ d ∉ A ∧ p ∉ B ∧ d ∉ B ∧ p ≠ d ∧ d ≠ p := by
  simp [List.nodup_append, List.nodup_cons] at hnd
  simp
  aesop

theorem nodup_mid3 {A B : List Nat} {p d n : Nat} (hnd : (A ++ p :: d :: n :: B).Nodup) :
    (p ∉ A ∧ d ∉ A ∧ n ∉ A) ∧ (p ∉ B ∧ d ∉ B ∧ n ∉ B) ∧
      (p ≠ d ∧ d ≠ p) ∧ (p ≠ n ∧ n ≠ p) ∧ (d ≠ n ∧ n ≠ d) := by
  simp [List.nodup_append, List.nodup_cons] at hnd
  simp
  aesop

theorem erase_repr {h : Heap} {l : list} {pre post : List (Nat × Int)} {d : Nat} {v : Int}
    (r : Repr h l (pre ++ (d, v) :: post)) :
    ∃ h2 l2, list.erase h l ⟨some d⟩ = some (h2, l2, ⟨firstOr post none⟩) ∧
      Repr h2 l2 (pre ++ post) ∧ h2.read d = none ∧ h2.length = h.length ∧
      ∀ a, a ∉ (pre ++ (d, v) :: post).map Prod.fst → h2.read a = h.read a := by
  have hnd := r.nodup
  have hseg := r.seg
  rw [Seg_append] at hseg
  obtain ⟨hpre, hd, hpost⟩ := hseg
  simp only [firstOr_cons] at hpre
  have hdl := read_lt hd
  have hcnt : decr l.numElements = (pre ++ post).length := by
    rw [r.count]; simp [decr]
  rcases List.eq_nil_or_concat pre with rfl | ⟨pre1, ⟨p, pw⟩, rfl⟩
  · simp only [lastOr_nil] at hd hpost
    cases post with
    | nil =>
      simp only [firstOr_nil] at hd
      refine ⟨_, _, by
        simp [list.erase, Heap.getNext, Heap.getPrev, Heap.setNext, Heap.setPrev, Heap.free, hd,
          read_upd]
        exact ⟨rfl, rfl⟩, ⟨trivial, rfl, rfl, hcnt⟩, by simp [read_upd, hdl], by simp, ?_⟩
      intro a ha
      have : a ≠ d := by simpa using ha
      simp [read_upd, this]
    | cons y post1 =>
      obtain ⟨n, nv⟩ := y
      simp only [firstOr_cons] at hd
      have hn := hpost.1
      have hnl := read_lt hn
      obtain ⟨-, -, hd1, hn1, hdn, hnd'⟩ :=
        nodup_mid2 (A := []) (B := post1.map Prod.fst) (p := d) (d := n) (by simpa using hnd)
      refine ⟨_, _, by
        simp [list.erase, Heap.getNext, Heap.getPrev, Heap.setNext, Heap.setPrev, Heap.free, hd,
          read_upd, hn, hdn, hnd', hnl, hdl]
        exact ⟨rfl, rfl⟩, ⟨?_, rfl, ?_, hcnt⟩, by simp [read_upd, hdl], by simp, ?_⟩
      · refine ⟨?_, Seg_upd _ (Seg_upd _ hpost.2 hn1) hd1⟩
        simp [read_upd, hnd', hnl, hdl]
      · simp [r.tail]
      · intro a ha
        simp at ha
        simp [read_upd, ha]
  · rw [List.concat_eq_append] at *
    rw [Seg_append] at hpre
    obtain ⟨hpre1, hp, -⟩ := hpre
    simp only [firstOr_cons, firstOr_nil] at hpre1 hp
    simp only [lastOr_append, lastOr_cons, lastOr_nil] at hd hpost
    have hpl := read_lt hp
    have hhead : l.pHead = firstOr pre1 (some p) := by
      rw [r.head]; simp
    cases post with
    | nil =>
      simp only [firstOr_nil] at hd
      obtain ⟨hp1, hd1, -, -, hpd, hdp⟩ :=
        nodup_mid2 (A := pre1.map Prod.fst) (B := []) (p := p) (d := d) (by simpa using hnd)
      refine ⟨_, _, by
        simp [list.erase, Heap.getNext, Heap.getPrev, Heap.setNext, Heap.setPrev, Heap.free, hd,
          read_upd, hp, hpd, hdp, hpl, hdl]
        exact ⟨rfl, rfl⟩, ⟨?_, ?_, ?_, hcnt⟩, by simp [read_upd, hdl], by simp, ?_⟩
      · rw [List.append_nil, Seg_append]
        refine ⟨Seg_upd _ (Seg_upd _ hpre1 hp1) hd1, ?_, trivial⟩
        simp [read_upd, hpd, hpl, hp]
      · simp [hhead]
      · simp
      · intro a ha
        simp at ha
        simp [read_upd, ha]
    | cons y post1 =>
      obtain ⟨n, nv⟩ := y
      simp only [firstOr_cons] at hd
      have hn := hpost.1
      have hnl := read_lt hn
      obtain ⟨⟨hp1, hd1, hn1⟩, ⟨hp2, hd2, hn2⟩, ⟨hpd, hdp⟩, ⟨hpn, hnp⟩, hdn, hnd'⟩ :=
        nodup_mid3 (A := pre1.map Prod.fst) (B := post1.map Prod.fst) (p := p) (d := d) (n := n)
          (by simpa using hnd)
      refine ⟨_, _, by
        simp [list.erase, Heap.getNext, Heap.getPrev, Heap.setNext, Heap.setPrev, Heap.free, hd,
          read_upd, hp, hn, hpd, hdp, hdn, hnd', hpn, hnp, hpl, hdl, hnl]
        exact ⟨rfl, rfl⟩, ⟨?_, ?_, ?_, hcnt⟩, by simp [read_upd, hdl], by simp, ?_⟩
      · rw [Seg_append, Seg_append]
        refine ⟨⟨Seg_upd _ (Seg_upd _ (Seg_upd _ hpre1 hp1) hn1) hd1, ?_, trivial⟩, ?_,
          Seg_upd _ (Seg_upd _ (Seg_upd _ hpost.2 hp2) hn2) hd2⟩
        · simp [read_upd, hpd, hpn, hpl, hp]
        · simp [read_upd, hnd', hnp, hnl, hn]
      · simp [hhead]
      · simp [r.tail]
      · intro a ha
        simp at ha
        simp [read_upd, ha]

theorem push_back_repr {h : Heap} {l : list} {xs : List (Nat × Int)} (r : Repr h l xs)
    (v : Int) :
    ∃ h2 l2, list.push_back h l v = some (h2, l2) ∧ Repr h2 l2 (xs ++ [(h.length, v)]) ∧
      h2.length = h.length + 1 ∧
      ∀ a, a ∉ xs.map Prod.fst → a ≠ h.length → h2.read a = h.read a := by
  rcases List.eq_nil_or_concat xs with rfl | ⟨ys, ⟨t, w⟩, rfl⟩
  · have hh : l.pHead = none := r.head
    refine ⟨_, _, by simp [list.push_back, hh, Heap.alloc]; exact ⟨rfl, rfl⟩,
      ⟨?_, rfl, rfl, ?_⟩, by simp, ?_⟩
    · simp [Seg, read_snoc]
    · simp [r.count]
    · intro a _ ha
      simp [read_snoc, ha]
  · rw [List.concat_eq_append] at r
    rw [List.concat_eq_append]
    have hnd := r.nodup
    have hseg := r.seg
    rw [Seg_append] at hseg
    obtain ⟨hys, ht, -⟩ := hseg
    have hh : l.pHead ≠ none := by
      rw [r.head]; exact firstOr_ne_none (by simp) _
    have htl : l.pTail = some t := by rw [r.tail]; simp
    have htlt : t < h.length := read_lt ht
    have htne : t ≠ h.length := by omega
    have hne2 : h.length ≠ t := by omega
    have htlt2 : t < h.length + 1 := by omega
    have htys : t ∉ ys.map Prod.fst := by
      rw [List.map_append, List.nodup_append] at hnd
      intro hm
      exact hnd.2.2 hm (by simp)
    simp only [firstOr_cons, firstOr_nil] at ht hys
    refine ⟨_, _, by
      simp [list.push_back, hh, htl, Heap.alloc, Heap.setNext, Heap.setPrev, read_snoc, read_upd,
        ht, htne, hne2]
      exact ⟨rfl, rfl⟩, ⟨?_, ?_, ?_, ?_⟩, by simp, ?_⟩
    · rw [Seg_append, Seg_append]
      refine ⟨⟨?_, ?_⟩, ?_⟩
      · exact Seg_upd _ (Seg_upd _ (Seg_upd _ (Seg_snoc _ hys) htys) (Seg_fresh hys))
          (Seg_fresh hys)
      · simp [Seg, read_upd, read_snoc, htne, hne2, htlt, htlt2, ht]
      · simp [Seg, read_upd, read_snoc, htne, hne2, htlt]
    · simp [r.head]
    · simp
    · simp [r.count]
    · intro a ha1 ha2
      simp at ha1
      simp [read_upd, read_snoc, ha1, ha2]

theorem push_front_repr {h : Heap} {l : list} {xs : List (Nat × Int)} (r : Repr h l xs)
    (v : Int) :
    ∃ h2 l2, list.push_front h l v = some (h2, l2) ∧ Repr h2 l2 ((h.length, v) :: xs) ∧
      h2.length = h.length + 1 ∧
      ∀ a, a ∉ xs.map Prod.fst → a ≠ h.length → h2.read a = h.read a := by
  cases xs with
  | nil =>
    have hh : l.pHead = none := r.head
    refine ⟨_, _, by
      simp [list.push_front, hh, Heap.alloc, Heap.setNext, Heap.setPrev, read_snoc, read_upd]
      exact ⟨rfl, rfl⟩, ⟨?_, rfl, rfl, ?_⟩, by simp, ?_⟩
    · simp [Seg, read_snoc, read_upd]
    · simp [r.count]
    · intro a _ ha
      simp [read_snoc, read_upd, ha]
  | cons x ys =>
    obtain ⟨t, w⟩ := x
    have hnd := r.nodup
    have hseg := r.seg
    obtain ⟨ht, hys⟩ := hseg
    have hh : l.pHead = some t := by rw [r.head]; simp
    have htlt : t < h.length := read_lt ht
    have htne : t ≠ h.length := by omega
    have hne2 : h.length ≠ t := by omega
    have htlt2 : t < h.length + 1 := by omega
    have htys : t ∉ ys.map Prod.fst := by
      simp only [List.map_cons, List.nodup_cons] at hnd
      exact hnd.1
    refine ⟨_, _, by
      simp [list.push_front, hh, Heap.alloc, Heap.setNext, Heap.setPrev, read_snoc, read_upd,
        ht, htne, hne2]
      exact ⟨rfl, rfl⟩, ⟨?_, ?_, ?_, ?_⟩, by simp, ?_⟩
    · refine ⟨?_, ?_, ?_⟩
      · simp [read_upd, read_snoc, htne, hne2, htlt]
      · simp [read_upd, read_snoc, htne, hne2, htlt, htlt2, ht]
      · exact Seg_upd _ (Seg_upd _ (Seg_upd _ (Seg_snoc _ hys) (Seg_fresh hys)) (Seg_fresh hys))
          htys
    · simp
    · simp [r.tail]
    · simp [r.count]
    · intro a ha1 ha2
      simp at ha1
      simp [read_upd, read_snoc, ha1, ha2]

theorem lastOr_mem (xs : List (Nat × Int)) (b : Nat) :
    ∃ c, lastOr xs (some b) = some c ∧ (c = b ∨ c ∈ xs.map Prod.fst) := by
  induction xs generalizing b with
  | nil => exact ⟨b, rfl, Or.inl rfl⟩
  | cons x xs ih =>
    obtain ⟨a, v⟩ := x
    obtain ⟨c, hc, hm⟩ := ih a
    refine ⟨c, by simpa using hc, Or.inr ?_⟩
    rcases hm with rfl | hm
    · simp
    · simp only [List.map_cons, List.mem_cons]; exact Or.inr hm

theorem firstOr_mem (xs : List (Nat × Int)) (b : Nat) :
    ∃ c, firstOr xs (some b) = some c ∧ (c = b ∨ c ∈ xs.map Prod.fst) := by
  cases xs with
  | nil => exact ⟨b, rfl, Or.inl rfl⟩
  | cons x xs => obtain ⟨a, v⟩ := x; exact ⟨a, rfl, Or.inr (by simp)⟩

theorem pop_front_repr {h : Heap} {l : list} {xs : List (Nat × Int)} (r : Repr h l xs) :
    ∃ h2 l2, list.pop_front h l = some (h2, l2) ∧ Repr h2 l2 xs.tail ∧
      h2.length = h.length ∧ (xs = [] → h2 = h ∧ l2 = l) ∧
      (∀ a, a ∉ xs.map Prod.fst → h2.read a = h.read a) ∧
      (∀ a, some a = firstOr xs none → h2.read a = none) := by
  cases xs with
  | nil =>
    have hh : l.pHead = none := r.head
    exact ⟨h, l, by simp [list.pop_front, hh], r, rfl, fun _ => ⟨rfl, rfl⟩, fun _ _ => rfl,
      by simp⟩
  | cons x ys =>
    obtain ⟨a, v⟩ := x
    have hnd := r.nodup
    obtain ⟨ha, hys⟩ := r.seg
    have hh : l.pHead = some a := by rw [r.head]; simp
    have hal := read_lt ha
    have hcnt : decr l.numElements = ys.length := by
      rw [r.count]; simp [decr]
    cases ys with
    | nil =>
      have ht : l.pTail = some a := by rw [r.tail]; simp
      refine ⟨_, _, by
        simp [list.pop_front, hh, ht, Heap.free, ha]
        exact ⟨rfl, rfl⟩, ⟨trivial, rfl, rfl, hcnt⟩, by simp, by simp, ?_, ?_⟩
      · intro b hb
        simp at hb
        simp [read_upd, hb]
      · intro b hb
        simp at hb
        simp [read_upd, hb, hal]
    | cons y zs =>
      obtain ⟨b, w⟩ := y
      obtain ⟨hb, hzs⟩ := hys
      have hbl := read_lt hb
      simp only [firstOr_cons] at ha
      obtain ⟨-, -, ha1, hb1, hab, hba⟩ :=
        nodup_mid2 (A := []) (B := zs.map Prod.fst) (p := a) (d := b) (by simpa using hnd)
      obtain ⟨c, hc, hcm⟩ := lastOr_mem zs b
      have ht : l.pTail = some c := by rw [r.tail]; simpa using hc
      have hac : a ≠ c := by
        rcases hcm with rfl | hcm
        · exact hab
        · intro e; exact ha1 (e ▸ hcm)
      refine ⟨_, _, by
        simp [list.pop_front, hh, ht, hac, Heap.free, Heap.getNext, Heap.setPrev, ha, hb, read_upd,
          hab, hba, hal, hbl]
        exact ⟨rfl, rfl⟩, ⟨?_, rfl, ?_, hcnt⟩, by simp, by simp, ?_, ?_⟩
      · refine ⟨?_, Seg_upd _ (Seg_upd _ hzs ha1) hb1⟩
        simp [read_upd, hba, hbl, hb]
      · simp [ht, hc]
      · intro d hd
        simp at hd
        simp [read_upd, hd]
      · intro d hd
        simp at hd
        simp [read_upd, hd, hab, hal]

theorem pop_back_repr {h : Heap} {l : list} {xs : List (Nat × Int)} (r : Repr h l xs) :
    ∃ h2 l2, list.pop_back h l = some (h2, l2) ∧ Repr h2 l2 xs.dropLast ∧
      h2.length = h.length ∧ (xs = [] → h2 = h ∧ l2 = l) ∧
      (∀ a, a ∉ xs.map Prod.fst → h2.read a = h.read a) ∧
      (∀ a, some a = lastOr xs none → h2.read a = none) := by
  rcases List.eq_nil_or_concat xs with rfl | ⟨ys, ⟨a, v⟩, rfl⟩
  · have hh : l.pTail = none := r.tail
    exact ⟨h, l, by simp [list.pop_back, hh], r, rfl, fun _ => ⟨rfl, rfl⟩, fun _ _ => rfl,
      by simp⟩
  · rw [List.concat_eq_append] at *
    have hnd := r.nodup
    have hseg := r.seg
    rw [Seg_append] at hseg
    obtain ⟨hys, ha, -⟩ := hseg
    simp only [firstOr_cons, firstOr_nil] at ha hys
    have ht : l.pTail = some a := by rw [r.tail]; simp
    have hal := read_lt ha
    have hcnt : decr l.numElements = ys.length := by
      rw [r.count]; simp [decr]
    rw [List.dropLast_concat]
    rcases List.eq_nil_or_concat ys with rfl | ⟨zs, ⟨b, w⟩, rfl⟩
    · have hh : l.pHead = some a := by rw [r.head]; simp
      refine ⟨_, _, by
        simp [list.pop_back, hh, ht, Heap.free, ha]
        exact ⟨rfl, rfl⟩, ⟨trivial, rfl, rfl, hcnt⟩, by simp, by simp, ?_, ?_⟩
      · intro b hb
        simp at hb
        simp [read_upd, hb]
      · intro b hb
        simp at hb
        simp [read_upd, hb, hal]
    · rw [List.concat_eq_append] at *
      rw [Seg_append] at hys
      obtain ⟨hzs, hb, -⟩ := hys
      simp only [firstOr_cons, firstOr_nil] at hb hzs
      simp only [lastOr_append, lastOr_cons, lastOr_nil] at ha
      have hbl := read_lt hb
      obtain ⟨hb1, ha1, -, -, hba, hab⟩ :=
        nodup_mid2 (A := zs.map Prod.fst) (B := []) (p := b) (d := a) (by simpa using hnd)
      obtain ⟨c, hc, hcm⟩ := firstOr_mem zs b
      have hh : l.pHead = some c := by rw [r.head]; simpa using hc
      have hac : c ≠ a := by
        rcases hcm with rfl | hcm
        · exact hba
        · intro e; exact ha1 (e ▸ hcm)
      refine ⟨_, _, by
        simp [list.pop_back, hh, ht, hac, Heap.free, Heap.getPrev, Heap.setNext, ha, hb, read_upd,
          hab, hba, hal, hbl]
        exact ⟨rfl, rfl⟩, ⟨?_, ?_, ?_, hcnt⟩, by simp, by simp, ?_, ?_⟩
      · rw [Seg_append]
        refine ⟨Seg_upd _ (Seg_upd _ hzs ha1) hb1, ?_, trivial⟩
        simp [read_upd, hba, hbl, hb]
      · simp [hh, hc]
      · simp
      · intro d hd
        simp at hd
        simp [read_upd, hd]
      · intro d hd
        simp at hd
        simp [read_upd, hd, hab, hal]

theorem insert_repr {h : Heap} {l : list} {pre post : List (Nat × Int)} {n : Nat} {nv : Int}
    (r : Repr h l (pre ++ (n, nv) :: post)) (v : Int) :
    ∃ h2 l2, list.insert h l ⟨some n⟩ v = some (h2, l2, ⟨some h.length⟩) ∧
      Repr h2 l2 (pre ++ (h.length, v) :: (n, nv) :: post) ∧ h2.length = h.length + 1 ∧
      ∀ a, a ∉ (pre ++ (n, nv) :: post).map Prod.fst → a ≠ h.length →
        h2.read a = h.read a := by
  have hnd := r.nodup
  have hseg := r.seg
  rw [Seg_append] at hseg
  obtain ⟨hpre, hn, hpost⟩ := hseg
  simp only [firstOr_cons] at hpre
  have hnl := read_lt hn
  have hnne : n ≠ h.length := by omega
  have hnne2 : h.length ≠ n := by omega
  have hnl2 : n < h.length + 1 := by omega
  have hcnt : l.numElements + 1 = (pre ++ (h.length, v) :: (n, nv) :: post).length := by
    rw [r.count]; simp; omega
  have hn2 : n ∉ post.map Prod.fst := by
    rw [List.map_append, List.map_cons, List.nodup_append, List.nodup_cons] at hnd
    exact hnd.2.1.1
  rcases List.eq_nil_or_concat pre with rfl | ⟨pre1, ⟨p, pw⟩, rfl⟩
  · simp only [lastOr_nil] at hn hpost
    refine ⟨_, _, by
      simp [list.insert, Heap.alloc, Heap.getPrev, Heap.setNext, Heap.setPrev, hn,
        read_upd, read_snoc, hnne, hnne2]
      exact ⟨rfl, rfl⟩, ⟨?_, rfl, ?_, hcnt⟩, by simp, ?_⟩
    · refine ⟨?_, ?_, ?_⟩
      · simp [read_upd, read_snoc, hnne, hnne2, hnl, hnl2]
      · simp [read_upd, read_snoc, hnne, hnne2, hnl, hnl2, hn]
      · exact Seg_upd _ (Seg_upd _ (Seg_upd _ (Seg_snoc _ hpost) (Seg_fresh hpost))
          (Seg_fresh hpost)) hn2
    · simp [r.tail]
    · intro a ha1 ha2
      simp at ha1
      simp [read_upd, read_snoc, ha1, ha2]
  · rw [List.concat_eq_append] at *
    rw [Seg_append] at hpre
    obtain ⟨hpre1, hp, -⟩ := hpre
    simp only [firstOr_cons, firstOr_nil] at hpre1 hp
    simp only [lastOr_append, lastOr_cons, lastOr_nil] at hn hpost
    have hpl := read_lt hp
    have hpne : p ≠ h.length := by omega
    have hpne2 : h.length ≠ p := by omega
    have hpl2 : p < h.length + 1 := by omega
    obtain ⟨hp1, hn1, hp2, -, hpn, hnp⟩ :=
      nodup_mid2 (A := pre1.map Prod.fst) (B := post.map Prod.fst) (p := p) (d := n)
        (by simpa using hnd)
    refine ⟨_, _, by
      simp [list.insert, Heap.alloc, Heap.getPrev, Heap.setNext, Heap.setPrev, hn, hp,
        read_upd, read_snoc, hnne, hnne2, hpne, hpne2, hpn, hnp]
      exact ⟨rfl, rfl⟩, ⟨?_, ?_, ?_, hcnt⟩, by simp, ?_⟩
    · rw [Seg_append, Seg_append]
      refine ⟨⟨?_, ?_, trivial⟩, ?_, ?_, ?_⟩
      · exact Seg_upd _ (Seg_upd _ (Seg_upd _ (Seg_upd _ (Seg_snoc _ hpre1)
          (Seg_fresh hpre1)) (Seg_fresh hpre1)) hp1) hn1
      · simp [read_upd, read_snoc, hpne, hpne2, hpl, hpl2, hp, hpn]
      · simp [read_upd, read_snoc, hnne, hnne2, hpne, hpne2, hnl, hnl2]
      · simp [read_upd, read_snoc, hnne, hnne2, hnl, hnl2, hn, hnp]
      · exact Seg_upd _ (Seg_upd _ (Seg_upd _ (Seg_upd _ (Seg_snoc _ hpost)
          (Seg_fresh hpost)) (Seg_fresh hpost)) hp2) hn2
    · simp [r.head]
    · simp [r.tail]
    · intro a ha1 ha2
      simp at ha1
      simp [read_upd, read_snoc, ha1, ha2]

theorem insert_end_repr {h : Heap} {l : list} {xs : List (Nat × Int)} (r : Repr h l xs)
    (v : Int) :
    ∃ h2 l2, list.insert h l ⟨none⟩ v = some (h2, l2, ⟨some h.length⟩) ∧
      list.push_back h l v = some (h2, l2) ∧
      Repr h2 l2 (xs ++ [(h.length, v)]) ∧ h2.length = h.length + 1 ∧
      ∀ a, a ∉ xs.map Prod.fst → a ≠ h.length → h2.read a = h.read a := by
  obtain ⟨h2, l2, he, hr, hl, hf⟩ := push_back_repr r v
  refine ⟨h2, l2, ?_, he, hr, hl, hf⟩
  have : l2.pTail = some h.length := by rw [hr.tail]; simp
  simp [list.insert, he, this]

theorem clearLoop_seg {h : Heap} {prev : Ptr} {xs : List (Nat × Int)} {fuel : Nat}
    (hs : Seg h prev xs none) (hnd : (xs.map Prod.fst).Nodup) (hf : xs.length ≤ fuel) :
    ∃ h2, list.clearLoop h fuel (firstOr xs none) = some h2 ∧ h2.length = h.length ∧
      (∀ a, a ∈ xs.map Prod.fst → h2.read a = none) ∧
      (∀ a, a ∉ xs.map Prod.fst → h2.read a = h.read a) := by
  induction xs generalizing h prev fuel with
  | nil => exact ⟨h, by cases fuel <;> rfl, rfl, by simp, fun _ _ => rfl⟩
  | cons x xs ih =>
    obtain ⟨a, v⟩ := x
    obtain ⟨ha, hxs⟩ := hs
    rw [List.map_cons, List.nodup_cons] at hnd
    cases fuel with
    | zero => simp at hf
    | succ fuel =>
      have hal := read_lt ha
      obtain ⟨h2, he, hl, hin, hout⟩ :=
        ih (h := h.upd a none) (Seg_upd none hxs hnd.1) hnd.2 (by simpa using hf)
      refine ⟨h2, ?_, by simpa using hl, ?_, ?_⟩
      · simp [list.clearLoop, Heap.getNext, Heap.free, ha, he]
      · intro b hb
        rcases List.mem_cons.1 hb with rfl | hb
        · rw [hout _ hnd.1]; simp [read_upd, hal]
        · exact hin b hb
      · intro b hb
        simp only [List.map_cons, List.mem_cons, not_or] at hb
        rw [hout b hb.2]; simp [read_upd, hb.1]

theorem nodup_length_le {as : List Nat} {n : Nat} (hnd : as.Nodup) (hlt : ∀ a ∈ as, a < n) :
    as.length ≤ n := by
  have h1 : as.toFinset ⊆ Finset.range n := by
    intro a ha
    exact Finset.mem_range.2 (hlt a (List.mem_toFinset.1 ha))
  have h2 := Finset.card_le_card h1
  rwa [List.toFinset_card_of_nodup hnd, Finset.card_range] at h2

theorem Seg_length_le {h : Heap} {prev : Ptr} {xs : List (Nat × Int)}
    (hs : Seg h prev xs none) : xs.length ≤ h.length := by
  have := nodup_length_le (Seg_nodup hs) (n := h.length) (by
    intro a ha
    obtain ⟨x, hx, rfl⟩ := List.mem_map.1 ha
    exact Seg_live hs x hx)
  simpa using this

theorem clear_repr {h : Heap} {l : list} {xs : List (Nat × Int)} (r : Repr h l xs) :
    ∃ h2, list.clear h l = some (h2, ⟨0, none, none⟩) ∧ Repr h2 ⟨0, none, none⟩ [] ∧
      h2.length = h.length ∧
      (∀ a, a ∈ xs.map Prod.fst → h2.read a = none) ∧
      (∀ a, a ∉ xs.map Prod.fst → h2.read a = h.read a) := by
  obtain ⟨h2, he, hl, hin, hout⟩ := clearLoop_seg r.seg r.nodup (Seg_length_le r.seg)
  refine ⟨h2, ?_, ⟨trivial, rfl, rfl, rfl⟩, hl, hin, hout⟩
  simp [list.clear, r.head, he]

/-! ## From segments to traversals -/

theorem walkNext_none_succ (h : Heap) (k : Nat) : walkNext h (k + 1) none = none := rfl

theorem walkNext_none {h : Heap} {k : Nat} {a : Nat} : walkNext h k none ≠ some (some a) := by
  cases k with
  | zero => simp [walkNext]
  | succ k => simp [walkNext_none_succ]

theorem walkPrev_none {h : Heap} {k : Nat} {a : Nat} : walkPrev h k none ≠ some (some a) := by
  cases k with
  | zero => simp [walkPrev]
  | succ k => simp [walkPrev, Heap.getPrev]

theorem walkNext_seg {h : Heap} {prev next : Ptr} {pre post : List (Nat × Int)}
    (hs : Seg h prev (pre ++ post) next) :
    walkNext h pre.length (firstOr (pre ++ post) next) = some (firstOr post next) := by
  induction pre generalizing prev with
  | nil => rfl
  | cons x pre ih =>
    obtain ⟨a, v⟩ := x
    rw [List.cons_append] at hs
    obtain ⟨ha, hrest⟩ := hs
    have := ih hrest
    simp only [firstOr_append] at this ha
    simp [walkNext, Heap.getNext, ha, this]

theorem walkPrev_seg {h : Heap} {prev next : Ptr} {pre post : List (Nat × Int)}
    (hs : Seg h prev (pre ++ post) next) :
    walkPrev h post.length (lastOr (pre ++ post) prev) = some (lastOr pre prev) := by
  induction post using List.reverseRecOn generalizing next with
  | nil => simp [walkPrev]
  | append_singleton post x ih =>
    obtain ⟨a, v⟩ := x
    rw [← List.append_assoc, Seg_append] at hs
    obtain ⟨hrest, ha, -⟩ := hs
    have := ih hrest
    simp only [lastOr_append] at this ha
    simp [walkPrev, Heap.getPrev, ha, this]

/-- Any node met by walking `pNext` from the first node of a null-terminated segment
belongs to the segment. -/
theorem walkNext_mem {h : Heap} {prev : Ptr} {xs : List (Nat × Int)} {k : Nat} {b : Nat}
    (hs : Seg h prev xs none) (hw : walkNext h k (firstOr xs none) = some (some b)) :
    b ∈ xs.map Prod.fst := by
  induction xs generalizing prev k with
  | nil => exact absurd hw walkNext_none
  | cons x xs ih =>
    obtain ⟨a, v⟩ := x
    obtain ⟨ha, hrest⟩ := hs
    cases k with
    | zero =>
      simp [walkNext] at hw
      simp [hw]
    | succ k =>
      simp [walkNext, Heap.getNext, ha] at hw
      simp only [List.map_cons, List.mem_cons]
      exact Or.inr (ih hrest hw)

theorem walkPrev_mem {h : Heap} {next : Ptr} {xs : List (Nat × Int)} {k : Nat} {b : Nat}
    (hs : Seg h none xs next) (hw : walkPrev h k (lastOr xs none) = some (some b)) :
    b ∈ xs.map Prod.fst := by
  induction xs using List.reverseRecOn generalizing next k with
  | nil => exact absurd hw walkPrev_none
  | append_singleton xs x ih =>
    obtain ⟨a, v⟩ := x
    rw [Seg_append] at hs
    obtain ⟨hrest, ha, -⟩ := hs
    cases k with
    | zero =>
      simp [walkPrev] at hw
      simp [hw]
    | succ k =>
      simp [walkPrev, Heap.getPrev, ha] at hw
      simp only [List.map_append, List.mem_append]
      exact Or.inl (ih hrest hw)

theorem forward_seg {h : Heap} {prev : Ptr} {xs : List (Nat × Int)} {fuel : Nat}
    (hs : Seg h prev xs none) (hf : xs.length ≤ fuel) :
    forward h fuel (firstOr xs none) = some (xs.map Prod.snd) := by
  induction xs generalizing prev fuel with
  | nil => cases fuel <;> rfl
  | cons x xs ih =>
    obtain ⟨a, v⟩ := x
    obtain ⟨ha, hrest⟩ := hs
    cases fuel with
    | zero => simp at hf
    | succ fuel =>
      have := ih hrest (show xs.length ≤ fuel by simpa using hf)
      simp [forward, Heap.getNext, Heap.getData, ha, this]

theorem forwardNodes_seg {h : Heap} {prev : Ptr} {xs : List (Nat × Int)} {fuel : Nat}
    (hs : Seg h prev xs none) (hf : xs.length ≤ fuel) :
    forwardNodes h fuel (firstOr xs none) = some (xs.map Prod.fst) := by
  induction xs generalizing prev fuel with
  | nil => cases fuel <;> rfl
  | cons x xs ih =>
    obtain ⟨a, v⟩ := x
    obtain ⟨ha, hrest⟩ := hs
    cases fuel with
    | zero => simp at hf
    | succ fuel =>
      have := ih hrest (show xs.length ≤ fuel by simpa using hf)
      simp [forwardNodes, Heap.getNext, ha, this]

theorem Repr.elements {h : Heap} {l : list} {xs : List (Nat × Int)} (r : Repr h l xs) :
    elements h l = some (xs.map Prod.snd) := by
  unfold custom.elements
  rw [r.head]
  exact forward_seg r.seg (Seg_length_le r.seg)

theorem Repr.nodes {h : Heap} {l : list} {xs : List (Nat × Int)} (r : Repr h l xs) :
    nodes h l = some (xs.map Prod.fst) := by
  unfold custom.nodes
  rw [r.head]
  exact forwardNodes_seg r.seg (Seg_length_le r.seg)

theorem Repr.unique {h : Heap} {l : list} {xs ys : List (Nat × Int)} (r : Repr h l xs)
    (r2 : Repr h l ys) : xs = ys :=
  Seg_det r.seg r2.seg (by rw [← r.head, ← r2.head])

theorem Repr.isNodeOf {h : Heap} {l : list} {xs : List (Nat × Int)} (r : Repr h l xs)
    (a : Nat) : isNodeOf h l a ↔ a ∈ xs.map Prod.fst := by
  constructor
  · rintro ⟨k, -, hw⟩
    rw [r.head] at hw
    exact walkNext_mem r.seg hw
  · intro hm
    obtain ⟨⟨a2, v⟩, hx, rfl⟩ := List.mem_map.1 hm
    obtain ⟨pre, post, rfl⟩ := List.append_of_mem hx
    refine ⟨pre.length, ?_, ?_⟩
    · rw [r.count]; simp
    · rw [r.head]
      have := @walkNext_seg h none none pre ((a2, v) :: post) r.seg
      simpa using this

/-! ## The invariants and the representation -/

theorem Repr.wf {h : Heap} {l : list} {xs : List (Nat × Int)} (r : Repr h l xs) : WF h l := by
  refine ⟨?_, ?_, ?_, ?_⟩
  · rw [r.count, r.head, r.tail]
    cases xs with
    | nil => simp
    | cons x xs => obtain ⟨a, v⟩ := x; simp
  · intro hne
    rw [r.count] at hne
    rw [r.head, r.tail]
    constructor
    · cases xs with
      | nil => simp at hne
      | cons x xs =>
        obtain ⟨a, v⟩ := x
        simp [Heap.getPrev, r.seg.1]
    · rcases List.eq_nil_or_concat xs with rfl | ⟨ys, ⟨t, w⟩, rfl⟩
      · simp at hne
      · rw [List.concat_eq_append] at *
        have hseg := r.seg
        rw [Seg_append] at hseg
        have := hseg.2.1
        simp [Heap.getNext, this]
  · intro k _ a hw
    rw [r.head] at hw
    have hm := walkNext_mem r.seg hw
    obtain ⟨⟨a2, v⟩, hx, rfl⟩ := List.mem_map.1 hm
    obtain ⟨pre, post, rfl⟩ := List.append_of_mem hx
    have hseg := r.seg
    rw [Seg_append] at hseg
    obtain ⟨hpre, ha, hpost⟩ := hseg
    simp only at *
    constructor
    · intro b hb
      simp [Heap.getNext, ha] at hb
      cases post with
      | nil => simp at hb
      | cons y post =>
        obtain ⟨c, w⟩ := y
        simp at hb
        subst hb
        simp [Heap.getPrev, hpost.1]
    · intro b hb
      simp [Heap.getPrev, ha] at hb
      rcases List.eq_nil_or_concat pre with rfl | ⟨pre1, ⟨c, w⟩, rfl⟩
      · simp at hb
      · rw [List.concat_eq_append] at *
        simp at hb
        subst hb
        rw [Seg_append] at hpre
        simp [Heap.getNext, hpre.2.1]
  · intro hne
    rw [r.count] at hne
    rw [r.head, r.tail, r.count]
    rcases List.eq_nil_or_concat xs with rfl | ⟨ys, ⟨t, w⟩, rfl⟩
    · simp at hne
    · rw [List.concat_eq_append] at *
      have := @walkNext_seg h none none ys [(t, w)] r.seg
      simpa using this

theorem seg_of_walk {h : Heap} (k : Nat) : ∀ (a : Nat) (prev : Ptr) (t : Nat),
    h.getPrev (some a) = some prev → walkNext h k (some a) = some (some t) →
    h.getNext (some t) = some none →
    (∀ j, j ≤ k → ∀ b, walkNext h j (some a) = some (some b) → linksOK h b) →
    ∃ xs, xs.length = k + 1 ∧ Seg h prev xs none ∧ firstOr xs none = some a ∧
      lastOr xs none = some t := by
  induction k with
  | zero =>
    intro a prev t hp hw hn _
    simp [walkNext] at hw
    subst hw
    cases hr : h.read a with
    | none => simp [Heap.getPrev, hr] at hp
    | some n =>
      simp [Heap.getPrev, hr] at hp
      simp [Heap.getNext, hr] at hn
      refine ⟨[(a, n.data)], rfl, ⟨?_, trivial⟩, rfl, rfl⟩
      rw [hr, ← hp, firstOr_nil, ← hn]
  | succ k ih =>
    intro a prev t hp hw hn hl
    cases hr : h.read a with
    | none => simp [Heap.getPrev, hr] at hp
    | some n =>
      simp [Heap.getPrev, hr] at hp
      simp [walkNext, Heap.getNext, hr] at hw
      cases hnx : n.pNext with
      | none => rw [hnx] at hw; exact absurd hw walkNext_none
      | some b =>
        rw [hnx] at hw
        have hla := hl 0 (Nat.zero_le _) a rfl
        have hbp := hla.1 b (by simp [Heap.getNext, hr, hnx])
        obtain ⟨xs, hlen, hseg, hf, hlast⟩ := ih b (some a) t hbp hw hn (by
          intro j hj c hc
          refine hl (j + 1) (by omega) c ?_
          simp [walkNext, Heap.getNext, hr, hnx, hc])
        refine ⟨(a, n.data) :: xs, by simp [hlen], ⟨?_, hseg⟩, rfl, ?_⟩
        · rw [hr, hf, ← hp, ← hnx]
        · cases xs with
          | nil => simp at hlen
          | cons y ys =>
            obtain ⟨c, w⟩ := y
            simpa using hlast

theorem WF.repr {h : Heap} {l : list} (w : WF h l) : ∃ xs, Repr h l xs := by
  by_cases h0 : l.numElements = 0
  · obtain ⟨hh, ht⟩ := w.empty_iff.1 h0
    exact ⟨[], trivial, hh, ht, h0⟩
  · obtain ⟨hp, hn⟩ := w.ends h0
    have hreach := w.reach h0
    cases hh : l.pHead with
    | none => simp [hh, Heap.getPrev] at hp
    | some a =>
      cases ht : l.pTail with
      | none => simp [ht, Heap.getNext] at hn
      | some t =>
        rw [hh] at hp hreach
        rw [ht] at hn hreach
        obtain ⟨xs, hlen, hseg, hf, hlast⟩ := seg_of_walk (l.numElements - 1) a none t hp hreach hn
          (by
            intro j hj b hb
            exact w.links j (by omega) b (by rw [hh]; exact hb))
        exact ⟨xs, hseg, by rw [hf, hh], by rw [hlast, ht], by omega⟩

/-- A well-formed list is represented, and its traversals read the representation. -/
theorem WF.repr_of {h : Heap} {l : list} {s : List Int} {ns : List Nat} (w : WF h l)
    (hs : elements h l = some s) (hn : nodes h l = some ns) :
    ∃ xs, Repr h l xs ∧ xs.map Prod.snd = s ∧ xs.map Prod.fst = ns := by
  obtain ⟨xs, r⟩ := w.repr
  refine ⟨xs, r, ?_, ?_⟩
  · have := r.elements; rw [hs] at this; simpa using this.symm
  · have := r.nodes; rw [hn] at this; simpa using this.symm

/-! ## Positions -/

theorem split_at_index {xs : List (Nat × Int)} {i a : Nat}
    (hi : (xs.map Prod.fst)[i]? = some a) :
    ∃ pre w post, xs = pre ++ (a, w) :: post ∧ pre.length = i := by
  induction xs generalizing i with
  | nil => simp at hi
  | cons x xs ih =>
    obtain ⟨b, w⟩ := x
    cases i with
    | zero =>
      simp at hi
      subst hi
      exact ⟨[], w, xs, rfl, rfl⟩
    | succ i =>
      simp only [List.map_cons, List.getElem?_cons_succ] at hi
      obtain ⟨pre, w2, post, rfl, hl⟩ := ih hi
      exact ⟨(b, w) :: pre, w2, post, rfl, by simp [hl]⟩

theorem split_of_mem {xs : List (Nat × Int)} {a : Nat} (hm : a ∈ xs.map Prod.fst) :
    ∃ pre w post, xs = pre ++ (a, w) :: post := by
  obtain ⟨⟨a2, v⟩, hx, rfl⟩ := List.mem_map.1 hm
  obtain ⟨pre, post, rfl⟩ := List.append_of_mem hx
  exact ⟨pre, v, post, rfl⟩

theorem eraseIdx_mid {α : Type} (pre post : List α) (x : α) :
    (pre ++ x :: post).eraseIdx pre.length = pre ++ post := by
  induction pre with
  | nil => rfl
  | cons y pre ih => simp [List.eraseIdx, ih]

theorem getElem?_mid {α : Type} (pre post : List α) (x : α) :
    (pre ++ x :: post)[pre.length]? = some x := by
  induction pre with
  | nil => simp
  | cons y pre ih => simpa using ih

theorem getElem?_mid_succ {α : Type} (pre post : List α) (x : α) :
    (pre ++ x :: post)[pre.length + 1]? = post.head? := by
  induction pre with
  | nil => cases post <;> simp
  | cons y pre ih => simpa using ih

theorem firstOr_none_eq (xs : List (Nat × Int)) :
    firstOr xs none = (xs.map Prod.fst).head? := by
  cases xs with
  | nil => rfl
  | cons x xs => obtain ⟨a, v⟩ := x; rfl

theorem lastOr_none_eq (xs : List (Nat × Int)) :
    lastOr xs none = (xs.map Prod.fst).getLast? := by
  rcases List.eq_nil_or_concat xs with rfl | ⟨ys, ⟨t, w⟩, rfl⟩
  · rfl
  · rw [List.concat_eq_append]; simp

/-- One call on a represented list, made within its precondition: it is defined,
the result is represented, and cells outside the list are kept. -/
theorem op_run_repr {h : Heap} {l : list} {xs : List (Nat × Int)} (r : Repr h l xs)
    (op : Op) (hv : op.valid h l) :
    ∃ h2 l2 xs2, op.run h l = some (h2, l2) ∧ Repr h2 l2 xs2 ∧
      xs2.length + (if op.removes l then 1 else 0) =
        xs.length + (if op.inserts then 1 else 0) ∧
      h.length ≤ h2.length ∧
      (∀ a, a ∉ xs.map Prod.fst → a < h.length → h2.read a = h.read a) ∧
      (∀ a, a ∈ xs2.map Prod.fst → a ∈ xs.map Prod.fst ∨ h.length ≤ a) := by
  have hemp : l.empty = true ↔ xs = [] := by
    simp [list.empty, r.count]
  cases op with
  | push_front v =>
    obtain ⟨h2, l2, he, hr, hl, hf⟩ := push_front_repr r v
    refine ⟨h2, l2, _, he, hr, by simp [Op.removes, Op.inserts], by omega,
      fun a ha hlt => hf a ha (by omega), ?_⟩
    intro a ha
    simp only [List.map_cons, List.mem_cons] at ha
    rcases ha with rfl | ha
    · exact Or.inr (le_refl _)
    · exact Or.inl ha
  | push_back v =>
    obtain ⟨h2, l2, he, hr, hl, hf⟩ := push_back_repr r v
    refine ⟨h2, l2, _, he, hr, by simp [Op.removes, Op.inserts], by omega,
      fun a ha hlt => hf a ha (by omega), ?_⟩
    intro a ha
    simp only [List.map_append, List.map_cons, List.map_nil, List.mem_append,
      List.mem_singleton] at ha
    rcases ha with ha | rfl
    · exact Or.inl ha
    · exact Or.inr (le_refl _)
  | pop_front =>
    obtain ⟨h2, l2, he, hr, hl, -, hf, -⟩ := pop_front_repr r
    refine ⟨h2, l2, _, he, hr, ?_, by omega, fun a ha _ => hf a ha, ?_⟩
    · cases xs with
      | nil => simp [Op.removes, Op.inserts, hemp]
      | cons x xs => simp [Op.removes, Op.inserts, hemp]
    · intro a ha
      exact Or.inl (((List.tail_sublist xs).map Prod.fst).subset ha)
  | pop_back =>
    obtain ⟨h2, l2, he, hr, hl, -, hf, -⟩ := pop_back_repr r
    refine ⟨h2, l2, _, he, hr, ?_, by omega, fun a ha _ => hf a ha, ?_⟩
    · rcases List.eq_nil_or_concat xs with rfl | ⟨ys, y, rfl⟩
      · simp [Op.removes, Op.inserts, hemp]
      · simp [Op.removes, Op.inserts, hemp]
    · intro a ha
      exact Or.inl (((List.dropLast_sublist xs).map Prod.fst).subset ha)
  | insert it v =>
    obtain ⟨p⟩ := it
    cases p with
    | none =>
      obtain ⟨h2, l2, he, -, hr, hl, hf⟩ := insert_end_repr r v
      refine ⟨h2, l2, _, by simp [Op.run, he], hr, by simp [Op.removes, Op.inserts], by omega,
        fun a ha hlt => hf a ha (by omega), ?_⟩
      intro a ha
      simp only [List.map_append, List.map_cons, List.map_nil, List.mem_append,
        List.mem_singleton] at ha
      rcases ha with ha | rfl
      · exact Or.inl ha
      · exact Or.inr (le_refl _)
    | some n =>
      have hn : isNodeOf h l n := hv
      obtain ⟨pre, w, post, rfl⟩ := split_of_mem ((r.isNodeOf n).1 hn)
      obtain ⟨h2, l2, he, hr, hl, hf⟩ := insert_repr r v
      refine ⟨h2, l2, _, by simp [Op.run, he], hr, by simp [Op.removes, Op.inserts]; omega,
        by omega, fun a ha hlt => hf a ha (by omega), ?_⟩
      intro a ha
      simp only [List.map_append, List.map_cons, List.mem_append, List.mem_cons] at ha ⊢
      rcases ha with ha | rfl | ha
      · exact Or.inl (Or.inl ha)
      · exact Or.inr (le_refl _)
      · exact Or.inl (Or.inr ha)
  | erase it =>
    obtain ⟨p⟩ := it
    cases p with
    | none =>
      refine ⟨h, l, xs, by simp [Op.run, list.erase], r,
        by simp [Op.removes, Op.inserts, list.iterator.ne, list.end_], le_refl _,
        fun _ _ _ => rfl, fun a ha => Or.inl ha⟩
    | some n =>
      have hn : isNodeOf h l n := hv
      obtain ⟨pre, w, post, rfl⟩ := split_of_mem ((r.isNodeOf n).1 hn)
      obtain ⟨h2, l2, he, hr, -, hl, hf⟩ := erase_repr r
      refine ⟨h2, l2, _, by simp [Op.run, he], hr,
        by simp [Op.removes, Op.inserts, list.iterator.ne, list.end_]; omega,
        by omega, fun a ha hlt => hf a ha, ?_⟩
      intro a ha
      simp only [List.map_append, List.map_cons, List.mem_append, List.mem_cons] at ha ⊢
      rcases ha with ha | ha
      · exact Or.inl (Or.inl ha)
      · exact Or.inl (Or.inr (Or.inr ha))

theorem repr123_ok : Repr heap123 list123 repr123 :=
  ⟨by simp [Seg, repr123, heap123, Heap.read], rfl, rfl, rfl⟩

/-! ## Constructors and sequences of mutations -/

theorem pushAll_repr {h : Heap} {l : list} {xs : List (Nat × Int)} (vs : List Int)
    (r : Repr h l xs) :
    ∃ h2 l2 zs, list.pushAll h l vs = some (h2, l2) ∧ Repr h2 l2 (xs ++ zs) ∧
      zs.map Prod.snd = vs ∧ h.length ≤ h2.length ∧
      (∀ a, a ∈ zs.map Prod.fst → h.length ≤ a) ∧
      (∀ a, a ∉ xs.map Prod.fst → a < h.length → h2.read a = h.read a) := by
  induction vs generalizing h l xs with
  | nil => exact ⟨h, l, [], rfl, by simpa using r, rfl, le_refl _, by simp, fun _ _ _ => rfl⟩
  | cons v vs ih =>
    obtain ⟨h1, l1, he, hr, hl, hf⟩ := push_back_repr r v
    obtain ⟨h2, l2, zs, he2, hr2, hz, hl2, hnew, hf2⟩ := ih hr
    refine ⟨h2, l2, (h.length, v) :: zs, by simp [list.pushAll, he, he2], by simpa using hr2,
      by simp [hz], by omega, ?_, ?_⟩
    · intro a ha
      simp only [List.map_cons, List.mem_cons] at ha
      rcases ha with rfl | ha
      · exact le_refl _
      · have := hnew a ha; omega
    · intro a ha hlt
      rw [hf2 a (by simp [ha]; omega) (by omega), hf a ha (by omega)]

theorem copyLoop_seg {h : Heap} {l : list} {ys : List (Nat × Int)} {prev : Ptr}
    (rest : List (Nat × Int)) (fuel : Nat) (hs : Seg h prev rest none) (r : Repr h l ys)
    (hdis : ∀ a, a ∈ ys.map Prod.fst → a ∉ rest.map Prod.fst) (hf : rest.length ≤ fuel) :
    ∃ h2 l2 zs, list.copyLoop h l fuel (firstOr rest none) = some (h2, l2) ∧
      Repr h2 l2 (ys ++ zs) ∧ zs.map Prod.snd = rest.map Prod.snd ∧ h.length ≤ h2.length ∧
      (∀ a, a ∈ zs.map Prod.fst → h.length ≤ a) ∧
      (∀ a, a ∉ ys.map Prod.fst → a < h.length → h2.read a = h.read a) := by
  induction rest generalizing h l ys prev fuel with
  | nil =>
    exact ⟨h, l, [], by cases fuel <;> rfl, by simpa using r, rfl, le_refl _, by simp,
      fun _ _ _ => rfl⟩
  | cons x rest ih =>
    obtain ⟨a, v⟩ := x
    obtain ⟨ha, hrest⟩ := hs
    cases fuel with
    | zero => simp at hf
    | succ fuel =>
      have hal := read_lt ha
      obtain ⟨h1, l1, he, hr, hl, hfr⟩ := push_back_repr r v
      have hays : a ∉ ys.map Prod.fst := fun hm => hdis a hm (by simp)
      have ha1 : h1.read a = h.read a := hfr a hays (by omega)
      have hrest1 : Seg h1 (some a) rest none := by
        refine Seg_frame hrest (fun y hy => ?_)
        have hy1 : y.1 ∈ ((a, v) :: rest).map Prod.fst :=
          List.mem_map_of_mem _ (List.mem_cons_of_mem _ hy)
        have := Seg_live hrest y hy
        exact hfr y.1 (fun hm => hdis _ hm hy1) (by omega)
      have hdis1 : ∀ b, b ∈ (ys ++ [(h.length, v)]).map Prod.fst → b ∉ rest.map Prod.fst := by
        intro b hb hm
        simp only [List.map_append, List.map_cons, List.map_nil, List.mem_append,
          List.mem_singleton] at hb
        rcases hb with hb | rfl
        · exact hdis b hb (by simp [hm])
        · exact Seg_fresh hrest hm
      obtain ⟨h2, l2, zs, he2, hr2, hz, hl2, hnew, hf2⟩ :=
        ih fuel hrest1 hr hdis1 (by simpa using hf)
      refine ⟨h2, l2, (h.length, v) :: zs, ?_, by simpa using hr2, by simp [hz], by omega,
        ?_, ?_⟩
      · simp [list.copyLoop, Heap.getData, Heap.getNext, ha, he, ha1, he2]
      · intro b hb
        simp only [List.map_cons, List.mem_cons] at hb
        rcases hb with rfl | hb
        · exact le_refl _
        · have := hnew b hb; omega
      · intro b hb hlt
        rw [hf2 b (by simp [hb]; omega) (by omega), hfr b hb (by omega)]

theorem copy_repr {h : Heap} {src : list} {xs : List (Nat × Int)} (r : Repr h src xs) :
    ∃ h2 l2 zs, list.copy h src = some (h2, l2) ∧ Repr h2 l2 zs ∧
      zs.map Prod.snd = xs.map Prod.snd ∧ h.length ≤ h2.length ∧
      (∀ a, a ∈ zs.map Prod.fst → h.length ≤ a) ∧
      (∀ a, a < h.length → h2.read a = h.read a) := by
  have r0 : Repr h list.default [] := ⟨trivial, rfl, rfl, rfl⟩
  obtain ⟨h2, l2, zs, he, hr, hz, hl, hnew, hf⟩ :=
    copyLoop_seg xs h.length r.seg r0 (by simp) (Seg_length_le r.seg)
  refine ⟨h2, l2, zs, ?_, by simpa using hr, hz, hl, hnew, fun a ha => hf a (by simp) ha⟩
  simp [list.copy, r.head, he]

theorem write_repr {h : Heap} {l : list} {pre post : List (Nat × Int)} {a : Nat} {w : Int}
    (r : Repr h l (pre ++ (a, w) :: post)) (v : Int) :
    ∃ h2, h.setData (some a) v = some h2 ∧ Repr h2 l (pre ++ (a, v) :: post) ∧
      h2.length = h.length ∧
      ∀ b, b ∉ (pre ++ (a, w) :: post).map Prod.fst → h2.read b = h.read b := by
  have hnd := r.nodup
  have hseg := r.seg
  rw [Seg_append] at hseg
  obtain ⟨hpre, ha, hpost⟩ := hseg
  have hal := read_lt ha
  rw [List.map_append, List.map_cons, List.nodup_append, List.nodup_cons] at hnd
  have ha1 : a ∉ pre.map Prod.fst := fun hm => hnd.2.2 hm (List.mem_cons_self _ _)
  have ha2 : a ∉ post.map Prod.fst := hnd.2.1.1
  refine ⟨_, by simp [Heap.setData, ha]; rfl, ⟨?_, ?_, ?_, ?_⟩, by simp, ?_⟩
  · rw [Seg_append]
    refine ⟨by simpa using Seg_upd _ hpre ha1, ?_, Seg_upd _ hpost ha2⟩
    simp [read_upd, hal]
  · rw [r.head]; simp
  · rw [r.tail]; simp
  · rw [r.count]; simp
  · intro b hb
    simp at hb
    simp [read_upd, hb]

/-- One mutation on a represented list, made within its precondition. -/
theorem mutation_run_repr {h : Heap} {l : list} {xs : List (Nat × Int)} (r : Repr h l xs)
    (m : Mutation) (hv : m.valid h l) :
    ∃ h2 l2 xs2, m.run h l = some (h2, l2) ∧ Repr h2 l2 xs2 ∧ h.length ≤ h2.length ∧
      (∀ a, a ∉ xs.map Prod.fst → a < h.length → h2.read a = h.read a) ∧
      (∀ a, a ∈ xs2.map Prod.fst → a ∈ xs.map Prod.fst ∨ h.length ≤ a) := by
  cases m with
  | op o =>
    obtain ⟨h2, l2, xs2, he, hr, -, hl, hf, hnew⟩ := op_run_repr r o hv
    exact ⟨h2, l2, xs2, he, hr, hl, hf, hnew⟩
  | clear =>
    obtain ⟨h2, he, hr, hl, -, hf⟩ := clear_repr r
    exact ⟨h2, _, [], he, hr, by omega, fun a ha _ => hf a ha, by simp⟩
  | write it v =>
    obtain ⟨p⟩ := it
    cases p with
    | none => exact absurd hv (fun f => f)
    | some a =>
      have hn : isNodeOf h l a := hv
      obtain ⟨pre, w, post, rfl⟩ := split_of_mem ((r.isNodeOf a).1 hn)
      obtain ⟨h2, he, hr, hl, hf⟩ := write_repr r v
      refine ⟨h2, l, _, by simp [Mutation.run, he], hr, by omega, fun b hb _ => hf b hb, ?_⟩
      intro b hb
      left
      simpa using hb

/-- A sequence of mutations of one list keeps every cell that is live at the start
and is not a node of that list. -/
theorem runMutations_frame {h : Heap} {l : list} {xs : List (Nat × Int)}
    (ms : List Mutation) (r : Repr h l xs) (hv : validMutations h l ms) :
    ∃ h2 l2 xs2, runMutations h l ms = some (h2, l2) ∧ Repr h2 l2 xs2 ∧
      h.length ≤ h2.length ∧
      (∀ a, a ∉ xs.map Prod.fst → a < h.length → h2.read a = h.read a) := by
  induction ms generalizing h l xs with
  | nil => exact ⟨h, l, xs, rfl, r, le_refl _, fun _ _ _ => rfl⟩
  | cons m ms ih =>
    obtain ⟨hv1, hv2⟩ := hv
    obtain ⟨h1, l1, xs1, he, hr, hl, hf, hnew⟩ := mutation_run_repr r m hv1
    rw [he] at hv2
    obtain ⟨h2, l2, xs2, he2, hr2, hl2, hf2⟩ := ih hr hv2
    refine ⟨h2, l2, xs2, by simp [runMutations, he, he2], hr2, by omega, ?_⟩
    intro a ha hlt
    rw [hf2 a ?_ (by omega), hf a ha hlt]
    intro hm
    rcases hnew a hm with hm | hge
    · exact ha hm
    · omega

/-! ## The fill constructors -/

theorem fillLoop_seg {t : Int} (k : Nat) : ∀ {h : Heap} {ys : List (Nat × Int)} {tl : Nat}
    {w : Int} {nx : Ptr}, Seg h none (ys ++ [(tl, w)]) nx →
    ((ys ++ [(tl, w)]).map Prod.fst).Nodup →
    ∃ h2 zs tl2 w2 nx2, list.fillLoop h (some tl) t k = some (h2, some tl2) ∧
      Seg h2 none (zs ++ [(tl2, w2)]) nx2 ∧ ((zs ++ [(tl2, w2)]).map Prod.fst).Nodup ∧
      (zs ++ [(tl2, w2)]).map Prod.snd = (ys ++ [(tl, w)]).map Prod.snd ++ List.replicate k t ∧
      firstOr (zs ++ [(tl2, w2)]) none = firstOr (ys ++ [(tl, w)]) none := by
  induction k with
  | zero =>
    intro h ys tl w nx hs hnd
    exact ⟨h, ys, tl, w, nx, rfl, hs, hnd, by simp, rfl⟩
  | succ k ih =>
    intro h ys tl w nx hs hnd
    have hs0 := hs
    rw [Seg_append] at hs
    obtain ⟨hys, ht, -⟩ := hs
    simp only [firstOr_cons, firstOr_nil] at hys ht
    have htl := read_lt ht
    have htne : tl ≠ h.length := by omega
    have hne2 : h.length ≠ tl := by omega
    have htl2 : tl < h.length + 1 := by omega
    have htys : tl ∉ ys.map Prod.fst := by
      rw [List.map_append, List.nodup_append] at hnd
      intro hm
      exact hnd.2.2 hm (by simp)
    have hfr := Seg_fresh hs0
    have hseg : Seg (((h ++ [some (Node.mk t none none)]).upd tl
          (some ⟨w, some h.length, lastOr ys none⟩)).upd h.length
          (some ⟨t, none, some tl⟩)) none ((ys ++ [(tl, w)]) ++ [(h.length, t)]) none := by
      rw [Seg_append, Seg_append]
      refine ⟨⟨?_, ?_, trivial⟩, ?_, trivial⟩
      · exact Seg_upd _ (Seg_upd _ (Seg_snoc _ hys) htys) (Seg_fresh hys)
      · simp [read_upd, read_snoc, htne, hne2, htl, htl2]
      · simp [read_upd, read_snoc, htne, hne2, htl]
    have hnd2 : (((ys ++ [(tl, w)]) ++ [(h.length, t)]).map Prod.fst).Nodup := by
      rw [List.map_append, List.nodup_append]
      refine ⟨hnd, by simp, ?_⟩
      intro a ha hb
      simp only [List.map_cons, List.map_nil, List.mem_singleton] at hb
      subst hb
      exact hfr ha
    obtain ⟨h2, zs, tl2, w2, nx2, he, hs2, hn2, hv2, hf2⟩ := ih hseg hnd2
    refine ⟨h2, zs, tl2, w2, nx2, ?_, hs2, hn2, ?_, ?_⟩
    · simp [list.fillLoop, Heap.alloc, Heap.setNext, Heap.setPrev, read_snoc, read_upd, ht, htne,
        hne2, he]
    · rw [hv2]; simp [List.replicate_succ]
    · rw [hf2]; simp

theorem fill_repr (h : Heap) (num : Nat) (t : Int) :
    ∃ h2 l2 xs, list.fill h num t = some (h2, l2) ∧ Repr h2 l2 xs ∧
      xs.map Prod.snd = List.replicate num t := by
  cases num with
  | zero => exact ⟨h, ⟨0, none, none⟩, [], rfl, ⟨trivial, rfl, rfl, rfl⟩, rfl⟩
  | succ k =>
    have hstart : ∃ h1 nx, (if k + 1 > 1 then
          Heap.setNext (h ++ [some ⟨t, none, none⟩]) (some h.length) (some h.length)
        else pure (h ++ [some ⟨t, none, none⟩])) = some h1 ∧
        Seg h1 none ([] ++ [(h.length, t)]) nx := by
      by_cases hk : k + 1 > 1
      · refine ⟨_, some h.length, by simp [hk, Heap.setNext, read_snoc]; rfl, ?_⟩
        simp [Seg, read_upd, read_snoc]
      · exact ⟨_, none, by simp [hk]; rfl, by simp [Seg, read_snoc]⟩
    obtain ⟨h1, nx, he1, hs1⟩ := hstart
    obtain ⟨h2, zs, tl2, w2, nx2, he2, hs2, hn2, hv2, hf2⟩ :=
      fillLoop_seg (t := t) k hs1 (by simp)
    have hs2' := hs2
    rw [Seg_append] at hs2
    obtain ⟨hzs, ht2, -⟩ := hs2
    simp only [firstOr_cons, firstOr_nil] at hzs ht2
    have htl := read_lt ht2
    have htzs : tl2 ∉ zs.map Prod.fst := by
      rw [List.map_append, List.nodup_append] at hn2
      intro hm
      exact hn2.2.2 hm (by simp)
    -- the heap after `pTail->pNext = nullptr`
    have hs3 : Seg (h2.upd tl2 (some ⟨w2, none, lastOr zs none⟩)) none (zs ++ [(tl2, w2)])
        none := by
      rw [Seg_append]
      exact ⟨Seg_upd _ hzs htzs, by simp [read_upd, htl], trivial⟩
    have hfirst : firstOr (zs ++ [(tl2, w2)]) none = some h.length := by rw [hf2]; rfl
    -- the head node already has a null `pPrev`
    obtain ⟨nh, hnh, hnp⟩ : ∃ nh, (h2.upd tl2 (some ⟨w2, none, lastOr zs none⟩)).read h.length =
        some nh ∧ nh.pPrev = none := by
      cases hz : zs ++ [(tl2, w2)] with
      | nil => simp at hz
      | cons y ys =>
        obtain ⟨a, v⟩ := y
        rw [hz] at hs3 hfirst
        simp only [firstOr_cons, Option.some.injEq] at hfirst
        subst hfirst
        exact ⟨_, hs3.1, rfl⟩
    have hsame : h.length < (h2.upd tl2 (some ⟨w2, none, lastOr zs none⟩)).length :=
      read_lt hnh
    refine ⟨(h2.upd tl2 (some ⟨w2, none, lastOr zs none⟩)).upd h.length
        (some { nh with pPrev := none }), ⟨k + 1, some h.length, some tl2⟩, zs ++ [(tl2, w2)],
      ?_, ⟨?_, ?_, ?_, ?_⟩, ?_⟩
    · simp only [list.fill, Heap.alloc]
      rw [if_pos (Nat.succ_pos k)]
      simp only [Nat.add_sub_cancel]
      rw [he1]
      simp [he2, Heap.setNext, Heap.setPrev, ht2, hnh]
    · refine Seg_frame hs3 (fun x _ => ?_)
      rw [read_upd]
      split
      · next hc =>
        rw [hc.1, hnh]
        cases nh
        simp only at hnp
        subst hnp
        rfl
      · rfl
    · exact hfirst.symm
    · simp
    · have := congrArg List.length hv2
      simp at this
      simp; omega
    · rw [hv2]; simp [List.replicate_succ]

/-! ## The claims -/

/-- C1: every mutator keeps the data-model invariants.  On a list that satisfies
them, `push_front`, `push_back`, `pop_front`, `pop_back`, `clear`, and `insert` and
`erase` at the end position or at a node of the list, are defined and leave a list
that satisfies them again. -/
theorem C1_mutators_preserve_invariants (h : Heap) (l : list) (w : WF h l) :
    (∀ v, ∃ h2 l2, list.push_front h l v = some (h2, l2) ∧ WF h2 l2) ∧
    (∀ v, ∃ h2 l2, list.push_back h l v = some (h2, l2) ∧ WF h2 l2) ∧
    (∃ h2 l2, list.pop_front h l = some (h2, l2) ∧ WF h2 l2) ∧
    (∃ h2 l2, list.pop_back h l = some (h2, l2) ∧ WF h2 l2) ∧
    (∃ h2 l2, list.clear h l = some (h2, l2) ∧ WF h2 l2) ∧
    (∀ it v, validPos h l it →
      ∃ h2 l2 it2, list.insert h l it v = some (h2, l2, it2) ∧ WF h2 l2) ∧
    (∀ it, validPos h l it →
      ∃ h2 l2 it2, list.erase h l it = some (h2, l2, it2) ∧ WF h2 l2) := by
  obtain ⟨xs, r⟩ := w.repr
  refine ⟨?_, ?_, ?_, ?_, ?_, ?_, ?_⟩
  · intro v
    obtain ⟨h2, l2, he, hr, -⟩ := push_front_repr r v
    exact ⟨h2, l2, he, hr.wf⟩
  · intro v
    obtain ⟨h2, l2, he, hr, -⟩ := push_back_repr r v
    exact ⟨h2, l2, he, hr.wf⟩
  · obtain ⟨h2, l2, he, hr, -⟩ := pop_front_repr r
    exact ⟨h2, l2, he, hr.wf⟩
  · obtain ⟨h2, l2, he, hr, -⟩ := pop_back_repr r
    exact ⟨h2, l2, he, hr.wf⟩
  · obtain ⟨h2, he, hr, -⟩ := clear_repr r
    exact ⟨h2, _, he, hr.wf⟩
  · intro it v hv
    obtain ⟨h2, l2, xs2, he, hr, -⟩ := op_run_repr r (Op.insert it v) hv
    simp only [Op.run, Option.map_eq_some'] at he
    obtain ⟨⟨h3, l3, it3⟩, he, hp⟩ := he
    simp only [Prod.mk.injEq] at hp
    obtain ⟨rfl, rfl⟩ := hp
    exact ⟨h3, l3, it3, he, hr.wf⟩
  · intro it hv
    obtain ⟨h2, l2, xs2, he, hr, -⟩ := op_run_repr r (Op.erase it) hv
    simp only [Op.run, Option.map_eq_some'] at he
    obtain ⟨⟨h3, l3, it3⟩, he, hp⟩ := he
    simp only [Prod.mk.injEq] at hp
    obtain ⟨rfl, rfl⟩ := hp
    exact ⟨h3, l3, it3, he, hr.wf⟩

/-- The invariants hold of the list `[1, 2, 3]`, and C1 applies to it. -/
theorem C1_witness :
    WF heap123 list123 ∧
    ((∀ v, ∃ h2 l2, list.push_front heap123 list123 v = some (h2, l2) ∧ WF h2 l2) ∧
    (∀ v, ∃ h2 l2, list.push_back heap123 list123 v = some (h2, l2) ∧ WF h2 l2) ∧
    (∃ h2 l2, list.pop_front heap123 list123 = some (h2, l2) ∧ WF h2 l2) ∧
    (∃ h2 l2, list.pop_back heap123 list123 = some (h2, l2) ∧ WF h2 l2) ∧
    (∃ h2 l2, list.clear heap123 list123 = some (h2, l2) ∧ WF h2 l2) ∧
    (∀ it v, validPos heap123 list123 it →
      ∃ h2 l2 it2, list.insert heap123 list123 it v = some (h2, l2, it2) ∧ WF h2 l2) ∧
    (∀ it, validPos heap123 list123 it →
      ∃ h2 l2 it2, list.erase heap123 list123 it = some (h2, l2, it2) ∧ WF h2 l2)) :=
  ⟨repr123_ok.wf, C1_mutators_preserve_invariants heap123 list123 repr123_ok.wf⟩

theorem runOps_repr {h : Heap} {l : list} {xs : List (Nat × Int)} (ops : List Op)
    (r : Repr h l xs) (hv : validOps h l ops) :
    ∃ h2 l2 xs2, runOps h l ops = some (h2, l2) ∧ Repr h2 l2 xs2 ∧
      xs2.length + removals h l ops = xs.length + insertions ops := by
  induction ops generalizing h l xs with
  | nil => exact ⟨h, l, xs, rfl, r, rfl⟩
  | cons op ops ih =>
    obtain ⟨hv1, hv2⟩ := hv
    obtain ⟨h1, l1, xs1, he, hr, hc, -⟩ := op_run_repr r op hv1
    rw [he] at hv2
    obtain ⟨h2, l2, xs2, he2, hr2, hc2⟩ := ih hr hv2
    refine ⟨h2, l2, xs2, by simp [runOps, he, he2], hr2, ?_⟩
    simp only [removals, he, insertions, List.filter_cons]
    simp only [insertions] at hc2
    cases hi : op.inserts <;> simp [hi] at hc ⊢ <;> omega

/-- C2: after any sequence of `push_front` / `push_back` / `pop_front` / `pop_back` /
`insert` / `erase` calls on an initially empty list, each made within its
precondition, `size()` is the number of insertions minus the number of calls that
removed a node, and is the number of nodes met by walking `pNext` from the head. -/
theorem C2_size_counts_nodes (h : Heap) (ops : List Op)
    (hv : validOps h list.default ops) :
    ∃ h2 l2, runOps h list.default ops = some (h2, l2) ∧
      removals h list.default ops ≤ insertions ops ∧
      l2.size = insertions ops - removals h list.default ops ∧
      (nodes h2 l2).map List.length = some l2.size := by
  have r0 : Repr h list.default [] := ⟨trivial, rfl, rfl, rfl⟩
  obtain ⟨h2, l2, xs2, he, hr, hc⟩ := runOps_repr ops r0 hv
  simp only [List.length_nil, Nat.zero_add] at hc
  refine ⟨h2, l2, he, by omega, ?_, ?_⟩
  · simp only [list.size, hr.count]; omega
  · simp [hr.nodes, list.size, hr.count]

/-- C2 on a sequence that pops an empty list and erases at the end position. -/
theorem C2_witness :
    validOps [] list.default
      [Op.push_back 5, Op.push_front 4, Op.insert ⟨some 0⟩ 9, Op.erase ⟨some 1⟩,
        Op.erase ⟨none⟩, Op.pop_back, Op.pop_front, Op.pop_front, Op.pop_back] ∧
    ∃ h2 l2, runOps [] list.default
      [Op.push_back 5, Op.push_front 4, Op.insert ⟨some 0⟩ 9, Op.erase ⟨some 1⟩,
        Op.erase ⟨none⟩, Op.pop_back, Op.pop_front, Op.pop_front, Op.pop_back] =
        some (h2, l2) ∧
      removals [] list.default
        [Op.push_back 5, Op.push_front 4, Op.insert ⟨some 0⟩ 9, Op.erase ⟨some 1⟩,
          Op.erase ⟨none⟩, Op.pop_back, Op.pop_front, Op.pop_front, Op.pop_back] ≤
        insertions
          [Op.push_back 5, Op.push_front 4, Op.insert ⟨some 0⟩ 9, Op.erase ⟨some 1⟩,
            Op.erase ⟨none⟩, Op.pop_back, Op.pop_front, Op.pop_front, Op.pop_back] ∧
      l2.size = insertions
          [Op.push_back 5, Op.push_front 4, Op.insert ⟨some 0⟩ 9, Op.erase ⟨some 1⟩,
            Op.erase ⟨none⟩, Op.pop_back, Op.pop_front, Op.pop_front, Op.pop_back] -
        removals [] list.default
          [Op.push_back 5, Op.push_front 4, Op.insert ⟨some 0⟩ 9, Op.erase ⟨some 1⟩,
            Op.erase ⟨none⟩, Op.pop_back, Op.pop_front, Op.pop_front, Op.pop_back] ∧
      (nodes h2 l2).map List.length = some l2.size :=
  ⟨by decide, C2_size_counts_nodes [] _ (by decide)⟩

/-- C3: `insert` places the value immediately before the given position.  On a
well-formed list with element sequence `s` and nodes `ns`, inserting `v` at the
`i`-th node gives the sequence `take i s ++ [v] ++ drop i s`, `size()` grows by
exactly 1, and the returned iterator references a node that was not live before,
holds `v` and sits at index `i`. -/
theorem C3_insert_before_position (h : Heap) (l : list) (s : List Int) (ns : List Nat)
    (i a : Nat) (v : Int) (w : WF h l) (hs : elements h l = some s)
    (hn : nodes h l = some ns) (hi : i < s.length) (ha : ns[i]? = some a) :
    ∃ h2 l2 it, list.insert h l ⟨some a⟩ v = some (h2, l2, it) ∧
      elements h2 l2 = some (s.take i ++ [v] ++ s.drop i) ∧
      l2.size = l.size + 1 ∧
      (∃ b, it.p = some b ∧ h.read b = none) ∧
      it.deref h2 = some v ∧
      (∃ ns2, nodes h2 l2 = some ns2 ∧ ns2[i]? = it.p) := by
  obtain ⟨xs, r, rfl, rfl⟩ := w.repr_of hs hn
  obtain ⟨pre, w0, post, rfl, hlen⟩ := split_at_index ha
  obtain ⟨h2, l2, he, hr, -, -⟩ := insert_repr r v
  subst hlen
  refine ⟨h2, l2, _, he, ?_, ?_, ⟨_, rfl, read_length h⟩, ?_, _, hr.nodes, ?_⟩
  · rw [hr.elements]
    simp [List.take_append_eq_append_take, List.drop_append_eq_append_drop]
  · simp [list.size, hr.count, r.count]; omega
  · have hseg := hr.seg
    rw [Seg_append] at hseg
    simp [list.iterator.deref, Heap.getData, hseg.2.1]
  · have := getElem?_mid (pre.map Prod.fst) ((a, w0) :: post |>.map Prod.fst) h.length
    simpa using this

/-- The scenario of C3: `[1, 2, 3]`, insert 99 at the node holding 2. -/
theorem C3_witness :
    (WF heap123 list123 ∧ elements heap123 list123 = some [1, 2, 3] ∧
      nodes heap123 list123 = some [0, 1, 2]) ∧
    ∃ h2 l2 it, list.insert heap123 list123 ⟨some 1⟩ 99 = some (h2, l2, it) ∧
      elements h2 l2 = some [1, 99, 2, 3] ∧
      l2.size = list123.size + 1 ∧
      (∃ b, it.p = some b ∧ heap123.read b = none) ∧
      it.deref h2 = some 99 ∧
      (∃ ns2, nodes h2 l2 = some ns2 ∧ ns2[1]? = it.p) :=
  ⟨⟨repr123_ok.wf, by decide, by decide⟩,
    C3_insert_before_position heap123 list123 [1, 2, 3] [0, 1, 2] 1 1 99 repr123_ok.wf
      (by decide) (by decide) (by decide) (by decide)⟩

/-- C4: `erase` removes exactly the referenced element and returns its successor.
At the end position it changes nothing and returns the end position.  At the
`i`-th node of a well-formed list it leaves the element sequence without its
`i`-th element, `size()` drops by exactly 1, the erased node is deleted and met
neither from the head nor from the tail, and the returned iterator references the
node that was at index `i + 1`, the end position when the erased node was the
tail. -/
theorem C4_erase_removes_position (h : Heap) (l : list) (s : List Int) (ns : List Nat)
    (w : WF h l) (hs : elements h l = some s) (hn : nodes h l = some ns) :
    list.erase h l l.end_ = some (h, l, l.end_) ∧
    ∀ i a, ns[i]? = some a →
      ∃ h2 l2 it, list.erase h l ⟨some a⟩ = some (h2, l2, it) ∧
        elements h2 l2 = some (s.eraseIdx i) ∧
        nodes h2 l2 = some (ns.eraseIdx i) ∧
        l2.size + 1 = l.size ∧
        h2.read a = none ∧
        (∀ k, walkNext h2 k l2.pHead ≠ some (some a)) ∧
        (∀ k, walkPrev h2 k l2.pTail ≠ some (some a)) ∧
        it.p = ns[i + 1]? ∧
        (l.pTail = some a → it = l2.end_) := by
  refine ⟨rfl, ?_⟩
  intro i a ha
  obtain ⟨xs, r, rfl, rfl⟩ := w.repr_of hs hn
  obtain ⟨pre, w0, post, rfl, hlen⟩ := split_at_index ha
  obtain ⟨h2, l2, he, hr, hd, -, -⟩ := erase_repr r
  subst hlen
  have hnd := r.nodup
  have hnot : a ∉ (pre ++ post).map Prod.fst := by
    rw [List.map_append, List.map_cons, List.nodup_append, List.nodup_cons] at hnd
    rw [List.map_append, List.mem_append]
    rintro (hm | hm)
    · exact hnd.2.2 hm (List.mem_cons_self _ _)
    · exact hnd.2.1.1 hm
  refine ⟨h2, l2, _, he, ?_, ?_, ?_, hd, ?_, ?_, ?_, ?_⟩
  · rw [hr.elements]
    have := eraseIdx_mid (pre.map Prod.snd) (post.map Prod.snd) w0
    simpa using this.symm
  · rw [hr.nodes]
    have := eraseIdx_mid (pre.map Prod.fst) (post.map Prod.fst) a
    simpa using this.symm
  · simp [list.size, hr.count, r.count]; omega
  · intro k hk
    rw [hr.head] at hk
    exact hnot (walkNext_mem hr.seg hk)
  · intro k hk
    rw [hr.tail] at hk
    exact hnot (walkPrev_mem hr.seg hk)
  · have := getElem?_mid_succ (pre.map Prod.fst) (post.map Prod.fst) a
    simp only [List.length_map] at this
    simp only [List.map_append, List.map_cons, this]
    exact firstOr_none_eq post
  · intro ht
    rw [r.tail] at ht
    have hpost : post = [] := by
      rcases List.eq_nil_or_concat post with rfl | ⟨ys, ⟨t, w1⟩, rfl⟩
      · rfl
      · rw [List.concat_eq_append] at *
        simp at ht
        subst ht
        exfalso
        simp [List.nodup_append] at hnd
    subst hpost
    rfl

/-- The scenario of C4: `[1, 2, 3]`, `erase(begin())` leaves `[2, 3]` and the
returned iterator references the node holding 2. -/
theorem C4_witness :
    (WF heap123 list123 ∧ elements heap123 list123 = some [1, 2, 3] ∧
      nodes heap123 list123 = some [0, 1, 2]) ∧
    ∃ h2 l2 it, list.erase heap123 list123 list123.begin = some (h2, l2, it) ∧
      elements h2 l2 = some [2, 3] ∧ it.deref h2 = some 2 ∧ l2.size + 1 = list123.size :=
  have hw := repr123_ok.wf
  ⟨⟨hw, by decide, by decide⟩, by
    obtain ⟨h2, l2, it, he, hel, -, hsz, -, -, -, hit, -⟩ :=
      (C4_erase_removes_position heap123 list123 [1, 2, 3] [0, 1, 2] hw (by decide)
        (by decide)).2 0 0 (by decide)
    refine ⟨h2, l2, it, he, hel, ?_, hsz⟩
    have he2 : list.erase heap123 list123 ⟨some 0⟩ =
        some ([none, some ⟨2, some 2, none⟩, some ⟨3, none, some 1⟩], ⟨2, some 1, some 2⟩,
          ⟨some 1⟩) := by decide
    rw [he2] at he
    simp only [Option.some.injEq, Prod.mk.injEq] at he
    obtain ⟨rfl, rfl, rfl⟩ := he
    decide⟩

/-- C5: erasing the only element empties the list.  On a well-formed list of
exactly one element `erase(begin())` leaves `pHead` and `pTail` null and
`size() == 0`, so `begin() == end()` and `empty()` holds. -/
theorem C5_erase_only_element (h : Heap) (l : list) (w : WF h l) (h1 : l.size = 1) :
    ∃ h2 l2 it, list.erase h l l.begin = some (h2, l2, it) ∧
      l2.pHead = none ∧ l2.pTail = none ∧ l2.size = 0 ∧
      l2.begin.eq l2.end_ = true ∧ l2.empty = true := by
  obtain ⟨xs, r⟩ := w.repr
  have hlen : xs.length = 1 := by rw [← r.count]; exact h1
  match xs, hlen, r with
  | [(a, v)], _, r =>
    obtain ⟨h2, l2, he, hr, -⟩ := @erase_repr h l [] [] a v r
    have hb : l.begin = ⟨some a⟩ := by simp [list.begin, r.head]
    refine ⟨h2, l2, _, by rw [hb]; exact he, hr.head, hr.tail, hr.count, ?_, ?_⟩
    · simp [list.iterator.eq, list.begin, list.end_, hr.head]
    · simp [list.empty, hr.count]

/-- C5 on the one-element list `[7]`. -/
theorem C5_witness :
    (WF [some ⟨7, none, none⟩] ⟨1, some 0, some 0⟩ ∧ list.size ⟨1, some 0, some 0⟩ = 1) ∧
    ∃ h2 l2 it, list.erase [some ⟨7, none, none⟩] ⟨1, some 0, some 0⟩
        (list.begin ⟨1, some 0, some 0⟩) = some (h2, l2, it) ∧
      l2.pHead = none ∧ l2.pTail = none ∧ l2.size = 0 ∧
      l2.begin.eq l2.end_ = true ∧ l2.empty = true :=
  have hw : WF [some ⟨7, none, none⟩] ⟨1, some 0, some 0⟩ :=
    @Repr.wf _ _ [(0, 7)] ⟨by simp [Seg, Heap.read], rfl, rfl, rfl⟩
  ⟨⟨hw, rfl⟩, C5_erase_only_element _ _ hw rfl⟩

theorem Repr.front_back {h : Heap} {l : list} {xs : List (Nat × Int)} (r : Repr h l xs)
    (hx : xs ≠ []) :
    list.front h l = (xs.map Prod.snd).head? ∧ list.back h l = (xs.map Prod.snd).getLast? := by
  constructor
  · cases xs with
    | nil => exact absurd rfl hx
    | cons x xs =>
      obtain ⟨a, v⟩ := x
      simp [list.front, r.head, Heap.getData, r.seg.1]
  · rcases List.eq_nil_or_concat xs with rfl | ⟨ys, ⟨t, w⟩, rfl⟩
    · exact absurd rfl hx
    · rw [List.concat_eq_append] at *
      have hseg := r.seg
      rw [Seg_append] at hseg
      simp [list.back, r.tail, Heap.getData, hseg.2.1]

/-- C6: `push_back` appends and `push_front` prepends.  On a well-formed list with
element sequence `s`, `push_back(v)` gives `s ++ [v]` with `back() == v`,
`push_front(v)` gives `[v] ++ s` with `front() == v`, and on a non-empty list
`front()` is the first and `back()` the last element of the sequence. -/
theorem C6_push_back_push_front (h : Heap) (l : list) (s : List Int) (v : Int)
    (w : WF h l) (hs : elements h l = some s) :
    (∃ h2 l2, list.push_back h l v = some (h2, l2) ∧ elements h2 l2 = some (s ++ [v]) ∧
      list.back h2 l2 = some v) ∧
    (∃ h2 l2, list.push_front h l v = some (h2, l2) ∧ elements h2 l2 = some (v :: s) ∧
      list.front h2 l2 = some v) ∧
    (s ≠ [] → list.front h l = s.head? ∧ list.back h l = s.getLast?) := by
  obtain ⟨xs, r⟩ := w.repr
  have hxs : xs.map Prod.snd = s := by
    have := r.elements; rw [hs] at this; simpa using this.symm
  subst hxs
  refine ⟨?_, ?_, ?_⟩
  · obtain ⟨h2, l2, he, hr, -⟩ := push_back_repr r v
    refine ⟨h2, l2, he, by simp [hr.elements], ?_⟩
    rw [(hr.front_back (by simp)).2]; simp
  · obtain ⟨h2, l2, he, hr, -⟩ := push_front_repr r v
    refine ⟨h2, l2, he, by simp [hr.elements], ?_⟩
    rw [(hr.front_back (by simp)).1]; simp
  · intro hne
    exact r.front_back (by rintro rfl; exact hne rfl)

/-- The scenario of C6: empty list, `push_back(5)`, `push_front(4)` gives `[4, 5]`
with `front() == 4` and `back() == 5`. -/
theorem C6_witness :
    (WF [some ⟨5, none, none⟩] ⟨1, some 0, some 0⟩ ∧
      list.push_back [] list.default 5 = some ([some ⟨5, none, none⟩], ⟨1, some 0, some 0⟩) ∧
      elements [some ⟨5, none, none⟩] ⟨1, some 0, some 0⟩ = some [5]) ∧
    ∃ h2 l2, list.push_front [some ⟨5, none, none⟩] ⟨1, some 0, some 0⟩ 4 = some (h2, l2) ∧
      elements h2 l2 = some [4, 5] ∧ list.front h2 l2 = some 4 ∧ list.back h2 l2 = some 5 :=
  have hw : WF [some ⟨5, none, none⟩] ⟨1, some 0, some 0⟩ :=
    @Repr.wf _ _ [(0, 5)] ⟨by simp [Seg, Heap.read], rfl, rfl, rfl⟩
  ⟨⟨hw, by decide, by decide⟩, by
    obtain ⟨h2, l2, he, hel, hf⟩ :=
      (C6_push_back_push_front [some ⟨5, none, none⟩] ⟨1, some 0, some 0⟩ [5] 4 hw
        (by decide)).2.1
    refine ⟨h2, l2, he, hel, hf, ?_⟩
    have he2 : list.push_front [some ⟨5, none, none⟩] ⟨1, some 0, some 0⟩ 4 =
        some ([some ⟨5, none, some 1⟩, some ⟨4, some 0, none⟩], ⟨2, some 1, some 0⟩) := by
      decide
    rw [he2] at he
    simp only [Option.some.injEq, Prod.mk.injEq] at he
    obtain ⟨rfl, rfl⟩ := he
    decide⟩

/-- C7: `insert` at the ends coincides with push.  On a well-formed list (the
empty one included) `insert(end(), v)` leaves the heap and the list exactly as
`push_back(v)` does, and `insert(begin(), v)` exactly as `push_front(v)` does. -/
theorem C7_insert_at_ends_is_push (h : Heap) (l : list) (v : Int) (w : WF h l) :
    (∃ h2 l2 it, list.insert h l l.end_ v = some (h2, l2, it) ∧
      list.push_back h l v = some (h2, l2)) ∧
    (∃ h2 l2 it, list.insert h l l.begin v = some (h2, l2, it) ∧
      list.push_front h l v = some (h2, l2)) := by
  obtain ⟨xs, r⟩ := w.repr
  constructor
  · obtain ⟨h2, l2, he, hp, -⟩ := insert_end_repr r v
    exact ⟨h2, l2, _, he, hp⟩
  · cases xs with
    | nil =>
      have hh : l.pHead = none := r.head
      obtain ⟨h2, l2, he, hp, -⟩ := insert_end_repr r v
      refine ⟨h2, l2, _, by simpa [list.begin, hh] using he, ?_⟩
      rw [← hp]
      simp [list.push_front, list.push_back, hh, Heap.alloc, Heap.setNext, Heap.setPrev,
        read_snoc, read_upd, Heap.upd]
    | cons x post =>
      obtain ⟨n, nv⟩ := x
      have hh : l.pHead = some n := by rw [r.head]; simp
      obtain ⟨h2, l2, he, -⟩ := @insert_repr h l [] post n nv r v
      refine ⟨h2, l2, _, by simpa [list.begin, hh] using he, ?_⟩
      have hn := r.seg.1
      have hnl := read_lt hn
      have hnne : n ≠ h.length := by omega
      have hnne2 : h.length ≠ n := by omega
      simp [list.insert, Heap.alloc, Heap.getPrev, Heap.setNext, Heap.setPrev, hn,
        read_upd, read_snoc, hnne, hnne2] at he
      simp [list.push_front, hh, Heap.alloc, Heap.setNext, Heap.setPrev, hn,
        read_upd, read_snoc, hnne, hnne2]
      exact he

/-- C7 on the list `[1, 2, 3]`. -/
theorem C7_witness :
    WF heap123 list123 ∧
    ((∃ h2 l2 it, list.insert heap123 list123 list123.end_ 9 = some (h2, l2, it) ∧
      list.push_back heap123 list123 9 = some (h2, l2)) ∧
    (∃ h2 l2 it, list.insert heap123 list123 list123.begin 9 = some (h2, l2, it) ∧
      list.push_front heap123 list123 9 = some (h2, l2))) :=
  ⟨repr123_ok.wf, C7_insert_at_ends_is_push heap123 list123 9 repr123_ok.wf⟩

/-- C8: `pop_front` and `pop_back` remove one end or do nothing.  On a well-formed
list with element sequence `s`: when `s` is empty both leave the heap and the list
as they are, with count 0; when `s = x :: r`, `pop_front` leaves `r`; when
`s = r ++ [x]`, `pop_back` leaves `r`; in both cases `size()` drops by exactly 1,
and `pHead` and `pTail` become null when `s` had exactly one element. -/
theorem C8_pop_front_pop_back (h : Heap) (l : list) (s : List Int) (w : WF h l)
    (hs : elements h l = some s) :
    (s = [] → list.pop_front h l = some (h, l) ∧ list.pop_back h l = some (h, l) ∧
      l.numElements = 0) ∧
    (∀ x r, s = x :: r → ∃ h2 l2, list.pop_front h l = some (h2, l2) ∧
      elements h2 l2 = some r ∧ l2.size + 1 = l.size ∧
      (r = [] → l2.pHead = none ∧ l2.pTail = none)) ∧
    (∀ x r, s = r ++ [x] → ∃ h2 l2, list.pop_back h l = some (h2, l2) ∧
      elements h2 l2 = some r ∧ l2.size + 1 = l.size ∧
      (r = [] → l2.pHead = none ∧ l2.pTail = none)) := by
  obtain ⟨xs, r⟩ := w.repr
  have hxs : xs.map Prod.snd = s := by
    have := r.elements; rw [hs] at this; simpa using this.symm
  subst hxs
  obtain ⟨hf, lf, hef, hrf, -, hnf, -⟩ := pop_front_repr r
  obtain ⟨hb, lb, heb, hrb, -, hnb, -⟩ := pop_back_repr r
  refine ⟨?_, ?_, ?_⟩
  · intro he
    have hx : xs = [] := by simpa using he
    obtain ⟨rfl, rfl⟩ := hnf hx
    obtain ⟨rfl, rfl⟩ := hnb hx
    exact ⟨hef, heb, by rw [r.count, hx]; rfl⟩
  · intro x r0 he
    cases xs with
    | nil => simp at he
    | cons y ys =>
      simp only [List.map_cons, List.cons.injEq] at he
      obtain ⟨-, rfl⟩ := he
      refine ⟨hf, lf, hef, by simpa using hrf.elements, ?_, ?_⟩
      · simp [list.size, hrf.count, r.count]
      · intro hr0
        have hy : ys = [] := by simpa using hr0
        subst hy
        exact ⟨hrf.head, hrf.tail⟩
  · intro x r0 he
    rcases List.eq_nil_or_concat xs with rfl | ⟨ys, y, rfl⟩
    · simp at he
    · rw [List.concat_eq_append] at *
      rw [List.dropLast_concat] at hrb
      simp only [List.map_append, List.map_cons, List.map_nil] at he
      have he2 := List.append_inj_left' he rfl
      subst he2
      refine ⟨hb, lb, heb, hrb.elements, ?_, ?_⟩
      · simp [list.size, hrb.count, r.count]
      · intro hr0
        have hy : ys = [] := by simpa using hr0
        subst hy
        exact ⟨hrb.head, hrb.tail⟩

/-- C8 on the list `[1, 2, 3]`. -/
theorem C8_witness :
    (WF heap123 list123 ∧ elements heap123 list123 = some [1, 2, 3]) ∧
    (∃ h2 l2, list.pop_front heap123 list123 = some (h2, l2) ∧
      elements h2 l2 = some [2, 3] ∧ l2.size + 1 = list123.size ∧
      (([2, 3] : List Int) = [] → l2.pHead = none ∧ l2.pTail = none)) ∧
    (∃ h2 l2, list.pop_back heap123 list123 = some (h2, l2) ∧
      elements h2 l2 = some [1, 2] ∧ l2.size + 1 = list123.size ∧
      (([1, 2] : List Int) = [] → l2.pHead = none ∧ l2.pTail = none)) :=
  have hw := repr123_ok.wf
  have hc := C8_pop_front_pop_back heap123 list123 [1, 2, 3] hw (by decide)
  ⟨⟨hw, by decide⟩, hc.2.1 1 [2, 3] rfl, hc.2.2 3 [1, 2] rfl⟩

theorem clearLoop_null (h : Heap) (fuel : Nat) : list.clearLoop h fuel none = some h := by
  cases fuel <;> rfl

theorem move_eq (h : Heap) (rhs : list) :
    list.move h rhs = some (h, rhs, ⟨0, none, none⟩) := by
  simp [list.move, list.clear, clearLoop_null]

theorem Repr.frame {h h2 : Heap} {l : list} {xs : List (Nat × Int)} (r : Repr h l xs)
    (hf : ∀ a, a ∈ xs.map Prod.fst → h2.read a = h.read a) : Repr h2 l xs :=
  ⟨Seg_frame r.seg (fun x hx => hf x.1 (List.mem_map_of_mem _ hx)), r.head, r.tail, r.count⟩

theorem nodes_eq_of_repr {h h2 : Heap} {l : list} {xs : List (Nat × Int)} (r : Repr h l xs)
    (r2 : Repr h2 l xs) : nodes h2 l = nodes h l := by
  rw [r.nodes, r2.nodes]

/-- C10: copy construction is a deep, independent copy.  For a well-formed list
`src` with element sequence `s`, the copy constructor is defined and builds a
well-formed list with element sequence `s` and `size() == length s`; no cell of the
heap that existed before is changed, so `src` keeps its nodes and elements; the two
lists share no node; and after any sequence of mutations of the copy (the six
inserting and removing calls, `clear`, writes through its iterators), `src`, whose
`pHead`, `pTail` and `numElements` no call on the copy can touch, still has the
same nodes with the same contents and the same element sequence. -/
theorem C10_copy_is_deep_and_independent (h : Heap) (src : list) (s : List Int)
    (w : WF h src) (hs : elements h src = some s) :
    ∃ h2 cp, list.copy h src = some (h2, cp) ∧ WF h2 cp ∧ elements h2 cp = some s ∧
      cp.size = s.length ∧
      (∀ a, a < h.length → h2.read a = h.read a) ∧
      WF h2 src ∧ elements h2 src = some s ∧ nodes h2 src = nodes h src ∧
      (∀ a, isNodeOf h2 cp a → ¬ isNodeOf h2 src a) ∧
      ∀ ms, validMutations h2 cp ms →
        ∃ h3 cp3, runMutations h2 cp ms = some (h3, cp3) ∧ WF h3 cp3 ∧
          WF h3 src ∧ elements h3 src = some s ∧ nodes h3 src = nodes h src ∧
          (∀ a, isNodeOf h src a → h3.read a = h.read a) := by
  obtain ⟨xs, r⟩ := w.repr
  have hxs : xs.map Prod.snd = s := by
    have := r.elements; rw [hs] at this; simpa using this.symm
  subst hxs
  obtain ⟨h2, cp, zs, he, rc, hz, hl, hnew, hold⟩ := copy_repr r
  have hlive : ∀ a, a ∈ xs.map Prod.fst → a < h.length := by
    intro a ha
    obtain ⟨x, hx, rfl⟩ := List.mem_map.1 ha
    exact Seg_live r.seg x hx
  have r2 : Repr h2 src xs := r.frame (fun a ha => hold a (hlive a ha))
  have hdis : ∀ a, a ∈ xs.map Prod.fst → a ∉ zs.map Prod.fst := by
    intro a ha hm
    have h1 := hlive a ha
    have h2 := hnew a hm
    omega
  refine ⟨h2, cp, he, rc.wf, by rw [rc.elements, hz], ?_, hold, r2.wf, r2.elements,
    nodes_eq_of_repr r r2, ?_, ?_⟩
  · have := congrArg List.length hz
    simp only [List.length_map] at this
    simp [list.size, rc.count, this]
  · intro a hc hsrc
    exact hdis a ((r2.isNodeOf a).1 hsrc) ((rc.isNodeOf a).1 hc)
  · intro ms hv
    obtain ⟨h3, cp3, zs3, he3, rc3, hl3, hf3⟩ := runMutations_frame ms rc hv
    have hkeep : ∀ a, a ∈ xs.map Prod.fst → h3.read a = h.read a := by
      intro a ha
      have h1 := hlive a ha
      rw [hf3 a (hdis a ha) (by omega), hold a h1]
    have r3 : Repr h3 src xs := r.frame hkeep
    exact ⟨h3, cp3, he3, rc3.wf, r3.wf, r3.elements, nodes_eq_of_repr r r3,
      fun a ha => hkeep a ((r.isNodeOf a).1 ha)⟩

/-- C10 on the list `[1, 2, 3]`. -/
theorem C10_witness :
    (WF heap123 list123 ∧ elements heap123 list123 = some [1, 2, 3]) ∧
    ∃ h2 cp, list.copy heap123 list123 = some (h2, cp) ∧ WF h2 cp ∧
      elements h2 cp = some [1, 2, 3] ∧ cp.size = 3 ∧
      (∀ a, a < heap123.length → h2.read a = heap123.read a) ∧
      WF h2 list123 ∧ elements h2 list123 = some [1, 2, 3] ∧
      nodes h2 list123 = nodes heap123 list123 ∧
      (∀ a, isNodeOf h2 cp a → ¬ isNodeOf h2 list123 a) ∧
      ∀ ms, validMutations h2 cp ms →
        ∃ h3 cp3, runMutations h2 cp ms = some (h3, cp3) ∧ WF h3 cp3 ∧
          WF h3 list123 ∧ elements h3 list123 = some [1, 2, 3] ∧
          nodes h3 list123 = nodes heap123 list123 ∧
          (∀ a, isNodeOf heap123 list123 a → h3.read a = heap123.read a) :=
  ⟨⟨repr123_ok.wf, by decide⟩,
    C10_copy_is_deep_and_independent heap123 list123 [1, 2, 3] repr123_ok.wf (by decide)⟩

/-- The copy of `[1, 2, 3]` and a run of mutations on it, evaluated: the copy
lives at addresses 3, 4, 5 and the cells 0, 1, 2 of the source are as before. -/
theorem copy_then_mutate_example :
    list.copy heap123 list123 =
      some (heap123 ++ [some ⟨1, some 4, none⟩, some ⟨2, some 5, some 3⟩,
        some ⟨3, none, some 4⟩], ⟨3, some 3, some 5⟩) ∧
    runMutations (heap123 ++ [some ⟨1, some 4, none⟩, some ⟨2, some 5, some 3⟩,
        some ⟨3, none, some 4⟩]) ⟨3, some 3, some 5⟩
      [Mutation.write ⟨some 4⟩ 20, Mutation.op (Op.erase ⟨some 3⟩), Mutation.op Op.pop_back,
        Mutation.op (Op.push_front 8), Mutation.clear] =
      some (heap123 ++ [none, none, none, none], ⟨0, none, none⟩) := by
  decide

/-- C11: move construction transfers the contents.  For a well-formed list `src`
with element sequence `s`, the move constructor is defined, leaves the heap as it
is (no node is allocated or deallocated), gives the new list `src`'s former
`pHead`, `pTail` and `numElements`, hence the very same nodes and the element
sequence `s`, and leaves `src` with count 0 and null `pHead` and `pTail`. -/
theorem C11_move_construction_transfers (h : Heap) (src : list) (s : List Int)
    (w : WF h src) (hs : elements h src = some s) :
    ∃ dst src2, list.move h src = some (h, dst, src2) ∧
      dst.pHead = src.pHead ∧ dst.pTail = src.pTail ∧ dst.numElements = src.numElements ∧
      elements h dst = some s ∧ nodes h dst = nodes h src ∧ WF h dst ∧
      src2.size = 0 ∧ src2.pHead = none ∧ src2.pTail = none :=
  ⟨src, ⟨0, none, none⟩, move_eq h src, rfl, rfl, rfl, hs, rfl, w, rfl, rfl, rfl⟩

/-- C11 on the list `[1, 2, 3]`. -/
theorem C11_witness :
    (WF heap123 list123 ∧ elements heap123 list123 = some [1, 2, 3]) ∧
    ∃ dst src2, list.move heap123 list123 = some (heap123, dst, src2) ∧
      dst.pHead = list123.pHead ∧ dst.pTail = list123.pTail ∧
      dst.numElements = list123.numElements ∧
      elements heap123 dst = some [1, 2, 3] ∧ nodes heap123 dst = nodes heap123 list123 ∧
      WF heap123 dst ∧ src2.size = 0 ∧ src2.pHead = none ∧ src2.pTail = none :=
  ⟨⟨repr123_ok.wf, by decide⟩,
    C11_move_construction_transfers heap123 list123 [1, 2, 3] repr123_ok.wf (by decide)⟩

/-- C12 as stated fails: on the empty list `front()` and `back()` do not fail, each
returns a reference to a value, the dummy 99. -/
theorem C12_counterexample :
    list.default.empty = true ∧ list.front [] list.default = some 99 ∧
      list.back [] list.default = some 99 := by
  decide

/-- C12, amended: `front()` and `back()` never fail.  On a well-formed list with
no elements each returns the dummy value 99, and on every non-empty well-formed
list they return the first and the last element. -/
theorem C12_front_back_never_fail (h : Heap) (l : list) (s : List Int) (w : WF h l)
    (hs : elements h l = some s) :
    (l.empty = true → list.front h l = some 99 ∧ list.back h l = some 99) ∧
    (l.empty = false → ∃ x y, list.front h l = some x ∧ list.back h l = some y ∧
      s.head? = some x ∧ s.getLast? = some y) := by
  obtain ⟨xs, r⟩ := w.repr
  have hxs : xs.map Prod.snd = s := by
    have := r.elements; rw [hs] at this; simpa using this.symm
  subst hxs
  constructor
  · intro he
    have h0 : l.numElements = 0 := by simpa [list.empty] using he
    obtain ⟨hh, ht⟩ := w.empty_iff.1 h0
    simp [list.front, list.back, hh, ht]
  · intro he
    have h0 : l.numElements ≠ 0 := by simpa [list.empty] using he
    have hne : xs ≠ [] := by
      rintro rfl
      exact h0 r.count
    obtain ⟨hf, hb⟩ := r.front_back hne
    cases hx : (xs.map Prod.snd).head? with
    | none => simp at hx; exact absurd hx hne
    | some x =>
      cases hy : (xs.map Prod.snd).getLast? with
      | none => simp at hy; exact absurd hy hne
      | some y => exact ⟨x, y, by rw [hf, hx], by rw [hb, hy], rfl, rfl⟩

/-- C12 amended, on the list `[1, 2, 3]`: `front()` is 1 and `back()` is 3. -/
theorem C12_witness :
    (WF heap123 list123 ∧ elements heap123 list123 = some [1, 2, 3] ∧
      list123.empty = false ∧ list.front heap123 list123 = some 1 ∧
      list.back heap123 list123 = some 3) ∧
    ((list123.empty = true →
      list.front heap123 list123 = some 99 ∧ list.back heap123 list123 = some 99) ∧
    (list123.empty = false → ∃ x y, list.front heap123 list123 = some x ∧
      list.back heap123 list123 = some y ∧
      ([1, 2, 3] : List Int).head? = some x ∧ ([1, 2, 3] : List Int).getLast? = some y)) :=
  ⟨⟨repr123_ok.wf, by decide, rfl, by decide, by decide⟩,
    C12_front_back_never_fail heap123 list123 [1, 2, 3] repr123_ok.wf (by decide)⟩

/-- C13: `clear` empties any list.  On a well-formed list of any length `clear()`
is defined and leaves `size() == 0`, null `pHead` and `pTail`, `begin() == end()`,
every node the list owned deleted and every other cell of the heap as it was. -/
theorem C13_clear_empties (h : Heap) (l : list) (ns : List Nat) (w : WF h l)
    (hn : nodes h l = some ns) :
    ∃ h2 l2, list.clear h l = some (h2, l2) ∧ l2.size = 0 ∧ l2.pHead = none ∧
      l2.pTail = none ∧ l2.begin.eq l2.end_ = true ∧ l2.empty = true ∧
      (∀ a, a ∈ ns → h2.read a = none) ∧
      (∀ a, a ∉ ns → h2.read a = h.read a) := by
  obtain ⟨xs, r⟩ := w.repr
  have hxs : xs.map Prod.fst = ns := by
    have := r.nodes; rw [hn] at this; simpa using this.symm
  subst hxs
  obtain ⟨h2, he, -, -, hin, hout⟩ := clear_repr r
  exact ⟨h2, _, he, rfl, rfl, rfl, rfl, rfl, hin, hout⟩

/-- The scenario of C13: a list with 3 elements. -/
theorem C13_witness :
    (WF heap123 list123 ∧ nodes heap123 list123 = some [0, 1, 2]) ∧
    ∃ h2 l2, list.clear heap123 list123 = some (h2, l2) ∧ l2.size = 0 ∧ l2.pHead = none ∧
      l2.pTail = none ∧ l2.begin.eq l2.end_ = true ∧ l2.empty = true ∧
      (∀ a, a ∈ [0, 1, 2] → h2.read a = none) ∧
      (∀ a, a ∉ [0, 1, 2] → h2.read a = heap123.read a) :=
  ⟨⟨repr123_ok.wf, by decide⟩,
    C13_clear_empties heap123 list123 [0, 1, 2] repr123_ok.wf (by decide)⟩

/-- C14: the fill constructors build exactly `n` equal elements in a well-formed
chain.  For every heap, `n` and `v`, `list(n, v)` is defined with `size() == n` and
`n` copies of `v`, `list(n)` with `size() == n` and `n` zeros; both satisfy the
data-model invariants, their nodes are pairwise distinct, and `n == 0` gives null
`pHead` and `pTail`. -/
theorem C14_fill_constructors (h : Heap) (n : Nat) (v : Int) :
    (∃ h2 l2 ns, list.fill h n v = some (h2, l2) ∧ l2.size = n ∧
      elements h2 l2 = some (List.replicate n v) ∧ WF h2 l2 ∧
      nodes h2 l2 = some ns ∧ ns.Nodup ∧ (n = 0 → l2.pHead = none ∧ l2.pTail = none)) ∧
    (∃ h2 l2 ns, list.fillDefault h n = some (h2, l2) ∧ l2.size = n ∧
      elements h2 l2 = some (List.replicate n 0) ∧ WF h2 l2 ∧
      nodes h2 l2 = some ns ∧ ns.Nodup ∧ (n = 0 → l2.pHead = none ∧ l2.pTail = none)) := by
  have key : ∀ t : Int, ∃ h2 l2 ns, list.fill h n t = some (h2, l2) ∧ l2.size = n ∧
      elements h2 l2 = some (List.replicate n t) ∧ WF h2 l2 ∧
      nodes h2 l2 = some ns ∧ ns.Nodup ∧ (n = 0 → l2.pHead = none ∧ l2.pTail = none) := by
    intro t
    obtain ⟨h2, l2, xs, he, r, hv⟩ := fill_repr h n t
    have hlen : xs.length = n := by
      have := congrArg List.length hv
      simpa using this
    refine ⟨h2, l2, _, he, by simp [list.size, r.count, hlen], by rw [r.elements, hv], r.wf,
      r.nodes, r.nodup, ?_⟩
    intro h0
    have hx : xs = [] := by
      apply List.eq_nil_of_length_eq_zero; omega
    subst hx
    exact ⟨r.head, r.tail⟩
  exact ⟨key v, key 0⟩

/-- C15: construction from a range or a literal sequence keeps content and order.
For every heap and finite sequence `xs`, the iterator-pair constructor over a range
yielding `xs` and the initializer-sequence constructor from `xs` are defined and
build a well-formed list with element sequence exactly `xs` and
`size() == length xs`; the empty sequence gives the empty list and leaves the heap
as it is. -/
theorem C15_from_sequence (h : Heap) (xs : List Int) :
    (∃ h2 l2, list.fromRange h xs = some (h2, l2) ∧ elements h2 l2 = some xs ∧
      l2.size = xs.length ∧ WF h2 l2) ∧
    (∃ h2 l2, list.fromSequence h xs = some (h2, l2) ∧ elements h2 l2 = some xs ∧
      l2.size = xs.length ∧ WF h2 l2) ∧
    list.fromRange h [] = some (h, list.default) ∧
    list.fromSequence h [] = some (h, list.default) := by
  obtain ⟨h2, l2, zs, he, r, hz, -⟩ :=
    @pushAll_repr h list.default [] xs ⟨trivial, rfl, rfl, rfl⟩
  simp only [List.nil_append] at r
  have hlen : zs.length = xs.length := by
    have := congrArg List.length hz
    simpa using this
  exact ⟨⟨h2, l2, he, by rw [r.elements, hz], by simp [list.size, r.count, hlen], r.wf⟩,
    ⟨h2, l2, he, by rw [r.elements, hz], by simp [list.size, r.count, hlen], r.wf⟩, rfl, rfl⟩

/-! ## Assignment and swap -/

@[simp] theorem Store.set_same (st : Store) (i : Nat) (l : list) : (st.set i l) i = l := by
  simp [Store.set]

theorem Store.set_other (st : Store) {i k : Nat} (l : list) (hk : k ≠ i) :
    (st.set i l) k = st k := by
  simp [Store.set, hk]

theorem assignMoveBody_repr {h : Heap} {this : list} {xs : List (Nat × Int)}
    (r : Repr h this xs) (rhs : list) :
    ∃ h2, list.assignMoveBody h this rhs = some (h2, rhs, ⟨0, none, none⟩) ∧
      h2.length = h.length ∧
      (∀ a, a ∈ xs.map Prod.fst → h2.read a = none) ∧
      (∀ a, a ∉ xs.map Prod.fst → h2.read a = h.read a) := by
  obtain ⟨h2, he, -, hl, hin, hout⟩ := clear_repr r
  exact ⟨h2, by simp [list.assignMoveBody, he], hl, hin, hout⟩

theorem Repr.live {h : Heap} {l : list} {xs : List (Nat × Int)} (r : Repr h l xs) :
    ∀ a, a ∈ xs.map Prod.fst → a < h.length := by
  intro a ha
  obtain ⟨x, hx, rfl⟩ := List.mem_map.1 ha
  exact Seg_live r.seg x hx

/-- Assigning to `this` a temporary list whose nodes are fresh: the former nodes
of `this` are deleted, everything else is kept. -/
theorem assign_temp_repr {h h1 : Heap} {this tmp : list} {xs zs : List (Nat × Int)}
    (r : Repr h this xs) (rt : Repr h1 tmp zs)
    (hnew : ∀ a, a ∈ zs.map Prod.fst → h.length ≤ a)
    (hold : ∀ a, a < h.length → h1.read a = h.read a) :
    ∃ h2 tmp1, list.assignMoveBody h1 this tmp = some (h2, tmp, tmp1) ∧
      list.destructor h2 tmp1 = some h2 ∧ Repr h2 tmp zs ∧
      (∀ a, a ∈ xs.map Prod.fst → h2.read a = none) ∧
      (∀ a, a ∉ xs.map Prod.fst → a < h.length → h2.read a = h.read a) := by
  have r1 : Repr h1 this xs := r.frame (fun a ha => hold a (r.live a ha))
  obtain ⟨h2, he, -, hin, hout⟩ := assignMoveBody_repr r1 tmp
  refine ⟨h2, _, he, rfl, rt.frame ?_, hin, ?_⟩
  · intro a ha
    refine hout a (fun hm => ?_)
    have h1 := hnew a ha
    have h2 := r.live a hm
    omega
  · intro a ha hlt
    rw [hout a ha, hold a hlt]

/-- C16: copy assignment and sequence assignment replace the contents.  For a
well-formed list `dst` (object `i`): after `dst = src`, for a distinct well-formed
list `src` (object `j`) with element sequence `s`, `dst` is a well-formed list
with exactly the element sequence `s` and its size, whatever `dst` held before,
and the member variables of `src` are unchanged; when the two lists shared no node
before, the nodes of `src` are unchanged and the two lists share no node after;
after `dst = xs`, `dst` has element sequence exactly `xs`; copy assignment of
`dst` to itself leaves heap and store unchanged. -/
theorem C16_copy_and_sequence_assignment (h : Heap) (st : Store) (i : Nat)
    (wi : WF h (st i)) :
    (∀ j s, i ≠ j → WF h (st j) → elements h (st j) = some s →
      ∃ h2 st2, list.assignCopy h st i j = some (h2, st2) ∧
        elements h2 (st2 i) = some s ∧ (st2 i).size = s.length ∧ WF h2 (st2 i) ∧
        st2 j = st j ∧
        (disjointLists h (st i) (st j) →
          WF h2 (st2 j) ∧ elements h2 (st2 j) = some s ∧
          nodes h2 (st2 j) = nodes h (st j) ∧
          (∀ a, isNodeOf h (st j) a → h2.read a = h.read a) ∧
          disjointLists h2 (st2 i) (st2 j))) ∧
    (∀ xs, ∃ h2 st2, list.assignSequence h st i xs = some (h2, st2) ∧
      elements h2 (st2 i) = some xs ∧ (st2 i).size = xs.length ∧ WF h2 (st2 i)) ∧
    list.assignCopy h st i i = some (h, st) := by
  obtain ⟨xs, r⟩ := wi.repr
  refine ⟨?_, ?_, by simp [list.assignCopy]⟩
  · intro j s hij wj hs
    obtain ⟨ys, rj⟩ := wj.repr
    have hys : ys.map Prod.snd = s := by
      have := rj.elements; rw [hs] at this; simpa using this.symm
    subst hys
    obtain ⟨h1, tmp, zs, hc, rt, hz, hl, hnew, hold⟩ := copy_repr rj
    obtain ⟨h2, tmp1, hb, hdes, rt2, -, hout⟩ := assign_temp_repr r rt hnew hold
    have hji : j ≠ i := fun e => hij e.symm
    have hlen : zs.length = ys.length := by
      have := congrArg List.length hz
      simpa using this
    refine ⟨h2, st.set i tmp, by simp [list.assignCopy, hij, hc, hb, hdes], ?_, ?_, ?_, ?_, ?_⟩
    · simp [rt2.elements, hz]
    · simp [list.size, rt2.count, hlen]
    · simpa using rt2.wf
    · exact Store.set_other st tmp hji
    · intro hd
      have hdis : ∀ a, a ∈ ys.map Prod.fst → a ∉ xs.map Prod.fst := by
        intro a ha hm
        exact hd a ((r.isNodeOf a).2 hm) ((rj.isNodeOf a).2 ha)
      have hkeep : ∀ a, a ∈ ys.map Prod.fst → h2.read a = h.read a :=
        fun a ha => hout a (hdis a ha) (rj.live a ha)
      have rj2 : Repr h2 (st j) ys := rj.frame hkeep
      rw [Store.set_other st tmp hji, Store.set_same]
      refine ⟨rj2.wf, rj2.elements, nodes_eq_of_repr rj rj2,
        fun a ha => hkeep a ((rj.isNodeOf a).1 ha), ?_⟩
      intro a ha hb2
      have h1 := hnew a ((rt2.isNodeOf a).1 ha)
      have h2 := rj.live a ((rj2.isNodeOf a).1 hb2)
      omega
  · intro vs
    obtain ⟨h1, tmp, zs, hc, rt, hz, hl, hnew, hold⟩ :=
      @pushAll_repr h list.default [] vs ⟨trivial, rfl, rfl, rfl⟩
    simp only [List.nil_append] at rt
    obtain ⟨h2, tmp1, hb, hdes, rt2, -, -⟩ :=
      assign_temp_repr r rt hnew (fun a ha => hold a (by simp) ha)
    have hlen : zs.length = vs.length := by
      have := congrArg List.length hz
      simpa using this
    refine ⟨h2, st.set i tmp, ?_, ?_, ?_, ?_⟩
    · have hc2 : list.fromSequence h vs = some (h1, tmp) := hc
      simp [list.assignSequence, hc2, hb, hdes]
    · simp [rt2.elements, hz]
    · simp [list.size, rt2.count, hlen]
    · simpa using rt2.wf

theorem repr7_ok : Repr heap1237 list7 [(3, 7)] :=
  ⟨by simp [Seg, heap1237, heap123, Heap.read], rfl, rfl, rfl⟩

theorem repr123_in_1237 : Repr heap1237 list123 repr123 :=
  ⟨by simp [Seg, repr123, heap1237, heap123, Heap.read], rfl, rfl, rfl⟩

theorem disjoint_123_7 : disjointLists heap1237 list123 list7 := by
  intro a ha hb
  have h1 := (repr123_in_1237.isNodeOf a).1 ha
  have h2 := (repr7_ok.isNodeOf a).1 hb
  simp [repr123] at h1 h2
  omega

theorem disjoint_7_123 : disjointLists heap1237 list7 list123 :=
  fun a ha hb => disjoint_123_7 a hb ha

/-- C16 on the lists `[1, 2, 3]` (object 0) and `[7]` (object 1): `[1, 2, 3] = [7]`. -/
theorem C16_witness :
    (WF heap1237 (store1237 0) ∧ (0 : Nat) ≠ 1 ∧ WF heap1237 (store1237 1) ∧
      elements heap1237 (store1237 1) = some [7] ∧
      disjointLists heap1237 (store1237 0) (store1237 1)) ∧
    ∃ h2 st2, list.assignCopy heap1237 store1237 0 1 = some (h2, st2) ∧
      elements h2 (st2 0) = some [7] ∧ (st2 0).size = 1 ∧ WF h2 (st2 0) ∧
      st2 1 = store1237 1 ∧ WF h2 (st2 1) ∧ elements h2 (st2 1) = some [7] ∧
      nodes h2 (st2 1) = nodes heap1237 (store1237 1) ∧
      (∀ a, isNodeOf heap1237 (store1237 1) a → h2.read a = heap1237.read a) ∧
      disjointLists h2 (st2 0) (st2 1) :=
  ⟨⟨repr123_in_1237.wf, by decide, repr7_ok.wf, by decide, disjoint_123_7⟩, by
    obtain ⟨h2, st2, he, h1, h2', h3, h4, h5⟩ :=
      (C16_copy_and_sequence_assignment heap1237 store1237 0 repr123_in_1237.wf).1 1 [7]
        (by decide) repr7_ok.wf (by decide)
    obtain ⟨h6, h7, h8, h9, h10⟩ := h5 disjoint_123_7
    exact ⟨h2, st2, he, h1, h2', h3, h4, h6, h7, h8, h9, h10⟩⟩

/-- C17: move assignment adopts the source and empties it.  For a well-formed list
`dst` (object `i`) with nodes `ns`: after `dst = move(src)`, for a distinct
well-formed list `src` (object `j`), `dst` has `src`'s former `pHead`, `pTail` and
`numElements`, `src` has count 0 and null `pHead` and `pTail`, every former node of
`dst` is deleted and no other cell is changed; when the two lists shared no node,
`dst` is well-formed over `src`'s former nodes with `src`'s element sequence;
assigning `dst` to itself leaves heap and store unchanged. -/
theorem C17_move_assignment (h : Heap) (st : Store) (i : Nat) (ns : List Nat)
    (wi : WF h (st i)) (hn : nodes h (st i) = some ns) :
    (∀ j s, i ≠ j → WF h (st j) → elements h (st j) = some s →
      ∃ h2 st2, list.assignMove h st i j = some (h2, st2) ∧
        st2 i = st j ∧ st2 j = ⟨0, none, none⟩ ∧
        (∀ k, k ≠ i → k ≠ j → st2 k = st k) ∧
        (∀ a, a ∈ ns → h2.read a = none) ∧
        (∀ a, a ∉ ns → h2.read a = h.read a) ∧
        (disjointLists h (st i) (st j) →
          WF h2 (st2 i) ∧ elements h2 (st2 i) = some s ∧
          nodes h2 (st2 i) = nodes h (st j))) ∧
    list.assignMove h st i i = some (h, st) := by
  obtain ⟨xs, r⟩ := wi.repr
  have hxs : xs.map Prod.fst = ns := by
    have := r.nodes; rw [hn] at this; simpa using this.symm
  subst hxs
  refine ⟨?_, by simp [list.assignMove]⟩
  intro j s hij wj hs
  obtain ⟨ys, rj⟩ := wj.repr
  obtain ⟨h2, he, -, hin, hout⟩ := assignMoveBody_repr r (st j)
  have hji : j ≠ i := fun e => hij e.symm
  refine ⟨h2, (st.set i (st j)).set j ⟨0, none, none⟩, by simp [list.assignMove, hij, he],
    ?_, by simp, ?_, hin, hout, ?_⟩
  · rw [Store.set_other _ _ hij, Store.set_same]
  · intro k hki hkj
    rw [Store.set_other _ _ hkj, Store.set_other _ _ hki]
  · intro hd
    have hdis : ∀ a, a ∈ ys.map Prod.fst → a ∉ xs.map Prod.fst := by
      intro a ha hm
      exact hd a ((r.isNodeOf a).2 hm) ((rj.isNodeOf a).2 ha)
    have rj2 : Repr h2 (st j) ys := rj.frame (fun a ha => hout a (hdis a ha))
    rw [Store.set_other _ _ hij, Store.set_same]
    refine ⟨rj2.wf, ?_, nodes_eq_of_repr rj rj2⟩
    rw [rj2.elements, ← hs, rj.elements]

/-- C17 on the lists `[1, 2, 3]` (object 0) and `[7]` (object 1):
`[1, 2, 3] = move([7])`. -/
theorem C17_witness :
    (WF heap1237 (store1237 0) ∧ nodes heap1237 (store1237 0) = some [0, 1, 2] ∧
      (0 : Nat) ≠ 1 ∧ WF heap1237 (store1237 1) ∧
      elements heap1237 (store1237 1) = some [7] ∧
      disjointLists heap1237 (store1237 0) (store1237 1)) ∧
    ∃ h2 st2, list.assignMove heap1237 store1237 0 1 = some (h2, st2) ∧
      st2 0 = store1237 1 ∧ st2 1 = ⟨0, none, none⟩ ∧
      (∀ a, a ∈ [0, 1, 2] → h2.read a = none) ∧
      WF h2 (st2 0) ∧ elements h2 (st2 0) = some [7] :=
  ⟨⟨repr123_in_1237.wf, by decide, by decide, repr7_ok.wf, by decide, disjoint_123_7⟩, by
    obtain ⟨h2, st2, he, h1, h2', -, h4, -, h6⟩ :=
      (C17_move_assignment heap1237 store1237 0 [0, 1, 2] repr123_in_1237.wf
        (by decide)).1 1 [7] (by decide) repr7_ok.wf (by decide)
    obtain ⟨h7, h8, -⟩ := h6 disjoint_123_7
    exact ⟨h2, st2, he, h1, h2', h4, h7, h8⟩⟩

/-- The member `swap` exchanges two lists (the part of C18 the code meets).  For
every heap, store and pair of objects, `a.swap(b)` leaves the heap as it is, gives
`a` the former `pHead`, `pTail` and `numElements` of `b` and `b` those of `a` (so
their element sequences are exchanged) and touches no other object; swapping a
list with itself changes nothing; and swapping twice restores heap and store.
The free function `swap(a, b)` is not embedded: the class befriends a non-template
`swap` that is defined nowhere, and the template of that name reads private
members without being a friend, so no call of it runs. -/
theorem member_swap_exchanges (h : Heap) (st : Store) (i j : Nat) :
    (list.swap h st i j).1 = h ∧
    (list.swap h st i j).2 i = st j ∧ (list.swap h st i j).2 j = st i ∧
    (∀ k, k ≠ i → k ≠ j → (list.swap h st i j).2 k = st k) ∧
    elements (list.swap h st i j).1 ((list.swap h st i j).2 i) = elements h (st j) ∧
    elements (list.swap h st i j).1 ((list.swap h st i j).2 j) = elements h (st i) ∧
    list.swap h st i i = (h, st) ∧
    list.swap (list.swap h st i j).1 (list.swap h st i j).2 i j = (h, st) := by
  have hi : (list.swap h st i j).2 i = st j := by
    by_cases hij : i = j
    · subst hij; simp [list.swap]
    · simp [list.swap, hij, Store.set]
  have hj : (list.swap h st i j).2 j = st i := by
    by_cases hij : i = j
    · subst hij; simp [list.swap]
    · simp [list.swap, hij, Store.set]
  have hh : (list.swap h st i j).1 = h := by
    by_cases hij : i = j <;> simp [list.swap, hij]
  refine ⟨hh, hi, hj, ?_, by rw [hh, hi], by rw [hh, hj], by simp [list.swap], ?_⟩
  · intro k hki hkj
    by_cases hij : i = j
    · simp [list.swap, hij]
    · simp [list.swap, hij, Store.set, hki, hkj]
  · by_cases hij : i = j
    · simp [list.swap, hij]
    · simp only [list.swap, hij, ne_eq, not_false_eq_true, if_true]
      refine Prod.ext rfl (funext fun k => ?_)
      by_cases hki : k = i
      · subst hki; simp [Store.set, hij]
      · by_cases hkj : k = j
        · subst hkj; simp [Store.set, hki, hij]
        · simp [Store.set, hki, hkj]

/-- C19: iterator stepping follows the links.  For an iterator that references a
live node `n`: `++it` makes it reference `n.pNext` (the sentinel when that is
null) and returns the advanced iterator; `it++` advances it the same way and
returns an iterator that still references `n`; `--it` and `it--` do the same with
`n.pPrev`; and any two iterators compare equal exactly when they hold the same
pointer, `!=` being the negation of `==`. -/
theorem C19_iterator_steps (h : Heap) (it : list.iterator) (a : Nat) (n : Node)
    (hp : it.p = some a) (hr : h.read a = some n) :
    it.preInc h = some ⟨n.pNext⟩ ∧
    it.postInc h = some (⟨n.pNext⟩, it) ∧
    it.preDec h = some ⟨n.pPrev⟩ ∧
    it.postDec h = some (⟨n.pPrev⟩, it) ∧
    (∀ x y : list.iterator, (x.eq y = true ↔ x.p = y.p) ∧ x.ne y = !x.eq y) := by
  refine ⟨?_, ?_, ?_, ?_, ?_⟩
  · simp [list.iterator.preInc, Heap.getNext, hp, hr]
  · simp [list.iterator.postInc, Heap.getNext, hp, hr]
  · simp [list.iterator.preDec, Heap.getPrev, hp, hr]
  · simp [list.iterator.postDec, Heap.getPrev, hp, hr]
  · intro x y
    exact ⟨by simp [list.iterator.eq], rfl⟩

/-- C19 at the middle node of `[1, 2, 3]`. -/
theorem C19_witness :
    ((⟨some 1⟩ : list.iterator).p = some 1 ∧
      heap123.read 1 = some ⟨2, some 2, some 0⟩) ∧
    (list.iterator.preInc heap123 ⟨some 1⟩ = some ⟨some 2⟩ ∧
    list.iterator.postInc heap123 ⟨some 1⟩ = some (⟨some 2⟩, ⟨some 1⟩) ∧
    list.iterator.preDec heap123 ⟨some 1⟩ = some ⟨some 0⟩ ∧
    list.iterator.postDec heap123 ⟨some 1⟩ = some (⟨some 0⟩, ⟨some 1⟩) ∧
    (∀ x y : list.iterator, (x.eq y = true ↔ x.p = y.p) ∧ x.ne y = !x.eq y)) :=
  ⟨⟨rfl, by decide⟩, C19_iterator_steps heap123 ⟨some 1⟩ 1 ⟨2, some 2, some 0⟩ rfl (by decide)⟩

/-- C20 fails on the code: the destructor of the list `[1, 2, 3]` returns the heap
as it is, and the three nodes the list owned are still live. -/
theorem C20_destructor_leaks :
    nodes heap123 list123 = some [0, 1, 2] ∧
    list.destructor heap123 list123 = some heap123 ∧
    heap123.read 0 = some ⟨1, some 1, none⟩ ∧
    heap123.read 1 = some ⟨2, some 2, some 0⟩ ∧
    heap123.read 2 = some ⟨3, none, some 1⟩ := by
  decide

/-- A represented list has the member variables its representation dictates. -/
theorem Repr.list_eq {h h2 : Heap} {l l2 : list} {xs : List (Nat × Int)} (r : Repr h l xs)
    (r2 : Repr h2 l2 xs) : l2 = l := by
  cases l
  cases l2
  have h1 := r.head
  have h2 := r.tail
  have h3 := r.count
  have h4 := r2.head
  have h5 := r2.tail
  have h6 := r2.count
  simp only at h1 h2 h3 h4 h5 h6
  simp [h1, h2, h3, h4, h5, h6]

/-- The cells of the nodes of a segment are dictated by the segment. -/
theorem Seg_read_eq {h h2 : Heap} {prev next : Ptr} {xs : List (Nat × Int)}
    (s1 : Seg h prev xs next) (s2 : Seg h2 prev xs next) :
    ∀ a, a ∈ xs.map Prod.fst → h2.read a = h.read a := by
  induction xs generalizing prev with
  | nil => intro a ha; simp at ha
  | cons x xs ih =>
    obtain ⟨b, v⟩ := x
    intro a ha
    simp only [List.map_cons, List.mem_cons] at ha
    rcases ha with rfl | ha
    · rw [s1.1, s2.1]
    · exact ih s1.2 s2.2 a ha

/-- C21: `erase` undoes `insert`.  On a well-formed list `L` with element sequence
`s` and nodes `ns`, for a position `p` that is the end position or a node of `L`
and any value `v`, `L.erase(L.insert(p, v))` is defined, returns an iterator equal
to `p`, and leaves `L` with the same `pHead`, `pTail` and `numElements`, the same
element sequence and nodes, and every cell of the heap that existed before,
the links of the original nodes included, as it was; the inserted node is deleted
again. -/
theorem C21_erase_undoes_insert (h : Heap) (l : list) (s : List Int) (ns : List Nat)
    (p : list.iterator) (v : Int) (w : WF h l) (hs : elements h l = some s)
    (hn : nodes h l = some ns) (hv : validPos h l p) :
    ∃ h1 l1 it1 h2 l2 it2, list.insert h l p v = some (h1, l1, it1) ∧
      list.erase h1 l1 it1 = some (h2, l2, it2) ∧
      it2 = p ∧ it2.eq p = true ∧ l2 = l ∧
      elements h2 l2 = some s ∧ nodes h2 l2 = some ns ∧ WF h2 l2 ∧
      (∀ a, a < h.length → h2.read a = h.read a) ∧
      (∀ a, it1.p = some a → h.read a = none ∧ h2.read a = none) := by
  obtain ⟨xs, r, rfl, rfl⟩ := w.repr_of hs hn
  have hfin : ∀ (h1 h2 : Heap) (l2 : list), Repr h2 l2 xs →
      (∀ a, a ∉ xs.map Prod.fst → a ≠ h.length → h1.read a = h.read a) →
      (∀ a, a ∉ xs.map Prod.fst → a ≠ h.length → h2.read a = h1.read a) →
      l2 = l ∧ elements h2 l2 = some (xs.map Prod.snd) ∧
        nodes h2 l2 = some (xs.map Prod.fst) ∧ WF h2 l2 ∧
        (∀ a, a < h.length → h2.read a = h.read a) := by
    intro h1 h2 l2 r2 hf1 hf2
    refine ⟨r.list_eq r2, r2.elements, r2.nodes, r2.wf, ?_⟩
    intro a ha
    by_cases hm : a ∈ xs.map Prod.fst
    · exact Seg_read_eq r.seg r2.seg a hm
    · rw [hf2 a hm (by omega), hf1 a hm (by omega)]
  obtain ⟨q⟩ := p
  cases q with
  | none =>
    obtain ⟨h1, l1, he, -, r1, -, hf1⟩ := insert_end_repr r v
    obtain ⟨h2, l2, he2, r2, hd, -, hf2⟩ := @erase_repr h1 l1 xs [] h.length v r1
    simp only [List.append_nil] at r2
    obtain ⟨e1, e2, e3, e4, e5⟩ := hfin h1 h2 l2 r2 hf1 (by
      intro a ha hne
      exact hf2 a (by simp [ha, hne]))
    refine ⟨h1, l1, _, h2, l2, _, he, he2, rfl, by simp [list.iterator.eq], e1, e2, e3, e4, e5,
      ?_⟩
    intro a ha
    simp only [Option.some.injEq] at ha
    subst ha
    exact ⟨read_length h, hd⟩
  | some n =>
    have hnode : isNodeOf h l n := hv
    obtain ⟨pre, nv, post, rfl⟩ := split_of_mem ((r.isNodeOf n).1 hnode)
    obtain ⟨h1, l1, he, r1, -, hf1⟩ := insert_repr r v
    obtain ⟨h2, l2, he2, r2, hd, -, hf2⟩ := @erase_repr h1 l1 pre ((n, nv) :: post) h.length v r1
    obtain ⟨e1, e2, e3, e4, e5⟩ := hfin h1 h2 l2 r2 hf1 (by
      intro a ha hne
      refine hf2 a ?_
      simp only [List.map_append, List.map_cons, List.mem_append, List.mem_cons, not_or] at ha ⊢
      exact ⟨ha.1, hne, ha.2.1, ha.2.2⟩)
    refine ⟨h1, l1, _, h2, l2, _, he, he2, by simp, by simp [list.iterator.eq], e1, e2, e3, e4,
      e5, ?_⟩
    intro a ha
    simp only [Option.some.injEq] at ha
    subst ha
    exact ⟨read_length h, hd⟩

/-- C21 on the list `[1, 2, 3]`, at the node holding 2. -/
theorem C21_witness :
    (WF heap123 list123 ∧ elements heap123 list123 = some [1, 2, 3] ∧
      nodes heap123 list123 = some [0, 1, 2] ∧ validPos heap123 list123 ⟨some 1⟩) ∧
    ∃ h1 l1 it1 h2 l2 it2, list.insert heap123 list123 ⟨some 1⟩ 99 = some (h1, l1, it1) ∧
      list.erase h1 l1 it1 = some (h2, l2, it2) ∧
      it2 = ⟨some 1⟩ ∧ it2.eq ⟨some 1⟩ = true ∧ l2 = list123 ∧
      elements h2 l2 = some [1, 2, 3] ∧ nodes h2 l2 = some [0, 1, 2] ∧ WF h2 l2 ∧
      (∀ a, a < heap123.length → h2.read a = heap123.read a) ∧
      (∀ a, it1.p = some a → heap123.read a = none ∧ h2.read a = none) :=
  ⟨⟨repr123_ok.wf, by decide, by decide, by decide⟩,
    C21_erase_undoes_insert heap123 list123 [1, 2, 3] [0, 1, 2] ⟨some 1⟩ 99 repr123_ok.wf
      (by decide) (by decide) (by decide)⟩

/-- The round trip of C21 evaluated at the end position and at the head of
`[1, 2, 3]`: the heap gets one more cell, which is empty again. -/
theorem erase_insert_example :
    ((list.insert heap123 list123 list123.end_ 99).bind
        fun r => list.erase r.1 r.2.1 r.2.2) =
      some (heap123 ++ [none], list123, list123.end_) ∧
    ((list.insert heap123 list123 list123.begin 99).bind
        fun r => list.erase r.1 r.2.1 r.2.2) =
      some (heap123 ++ [none], list123, list123.begin) := by
  decide

end custom
